import Mathlib

/-!
# TiktokScraper: a shallow embedding of `src/index.js`

The script reads `links.txt`, splits it into links, and for every link asks a lookup
service for markup, scrapes a media URL and a caption out of it with regular expressions,
builds a file name and downloads the media.  Finally it empties `links.txt`.

Strings are JavaScript strings, i.e. sequences of UTF-16 code units (none of the regular
expressions of the script carries the `u` flag, so every one of them works on code units).
The outside world (file system, network, the builtin `decodeURIComponent`) is a parameter
of the model (`World`); every way in which an awaited call can complete is an outcome.
-/

namespace TiktokScraper

/-! ## Strings -/

/-- A JavaScript string: its UTF-16 code units. -/
abbrev JSString := List Nat

/-- The code units of a literal (all literals of the script are ASCII). -/
def lit (s : String) : JSString := s.data.map Char.toNat

/-- ECMAScript `WhiteSpace` or `LineTerminator`: what `\s` matches and what `trim` removes. -/
def isWhiteSpace (c : Nat) : Bool :=
  c == 9 || c == 10 || c == 11 || c == 12 || c == 13 || c == 32 || c == 160 || c == 5760 ||
  (decide (8192 ≤ c) && decide (c ≤ 8202)) || c == 8232 || c == 8233 || c == 8239 ||
  c == 8287 || c == 12288 || c == 65279

/-- ECMAScript `LineTerminator`: what `.` does not match without the `s` flag. -/
def isLineTerminator (c : Nat) : Bool :=
  c == 10 || c == 13 || c == 8232 || c == 8233

/-- `str.split(sep)` for a one-code-unit separator: the pieces between the separators
(`''.split(',')` is `['']`). -/
def split (sep : Nat) : JSString → List JSString
  | [] => [[]]
  | c :: cs =>
    if c = sep then [] :: split sep cs
    else match split sep cs with
      | [] => [[c]]
      | p :: ps => (c :: p) :: ps

/-- `str.trimStart()`. -/
def trimStart (s : JSString) : JSString := s.dropWhile isWhiteSpace

/-- `str.trim()`: white space removed at both ends. -/
def trim (s : JSString) : JSString := (trimStart (trimStart s).reverse).reverse

/-- Matching a literal at the start of `s`: the rest of `s` behind it. -/
def dropLit? : JSString → JSString → Option JSString
  | [], s => some s
  | _ :: _, [] => none
  | p :: ps, c :: cs => if p = c then dropLit? ps cs else none

/-- A regular expression search without the sticky flag: the matcher `m` is tried at
every start position from left to right, the first success wins. -/
def firstMatch {α : Type} (m : JSString → Option α) : JSString → Option α
  | [] => m []
  | c :: cs =>
    match m (c :: cs) with
    | some r => some r
    | none => firstMatch m cs

/-- `str.replace(/\s+/g, r)`: every maximal run of white space becomes the one code unit
`r`.  The flag tells whether the previous code unit was white space (the run has already
been replaced). -/
def replaceWsRuns (r : Nat) : Bool → JSString → JSString
  | _, [] => []
  | inRun, c :: cs =>
    if isWhiteSpace c then
      if inRun then replaceWsRuns r true cs else r :: replaceWsRuns r true cs
    else c :: replaceWsRuns r false cs

/-! ## Line 29: the link list -/

/-- Line 29: `content.split(',').map(l => l.trim()).filter(Boolean)`. -/
def parseLinks (content : JSString) : List JSString :=
  ((split 44 content).map trim).filter (fun l => !l.isEmpty)

/-! ## Lines 38-39: the author handle -/

/-- The regular expression `/tiktok\.com\/@([^\/]+)/` tried at the start of `s`; the
result is group 1.  `[^\/]+` is greedy and nothing follows it, so it takes the whole run
of code units other than `/`, which must not be empty. -/
def userMatchAt (s : JSString) : Option JSString :=
  match dropLit? (lit "tiktok.com/@") s with
  | none => none
  | some r =>
    let g := r.takeWhile (fun c => c != 47)
    if g.isEmpty then none else some g

/-- Line 38: `link.match(/tiktok\.com\/@([^\/]+)/)`, group 1 of the match. -/
def userMatch (link : JSString) : Option JSString := firstMatch userMatchAt link

/-- Line 39: `userMatch ? userMatch[1] : 'unknown_user'`. -/
def username (link : JSString) : JSString :=
  match userMatch link with
  | some g => g
  | none => lit "unknown_user"

/-! ## Lines 63-69: the media URL -/

/-- The class `["']`. -/
def isQuote (c : Nat) : Bool := c == 34 || c == 39

/-- The text behind the first occurrence of `pat` in `s`. -/
def afterFirst (pat : JSString) (s : JSString) : Option JSString := firstMatch (dropLit? pat) s

/-- Whether a quote-free run matches `[^"']*tiktokcdn[^"']*video_mp4[^"']*`: it holds
`tiktokcdn` and, behind it, `video_mp4`. -/
def hasMarkers (run : JSString) : Bool :=
  match afterFirst (lit "tiktokcdn") run with
  | none => false
  | some r => (afterFirst (lit "video_mp4") r).isSome

/-- The part `:\/\/[^"']*tiktokcdn[^"']*video_mp4[^"']*)["']` of the URL expression, tried
at the start of `s`, behind the scheme `sch`; the result is group 1.  The three `[^"']*`
cannot step over a quote and the expression ends with a quote, so a match takes the whole
quote-free run up to the first quote, and backtracking only decides where the two markers
sit inside that run. -/
def urlBody (sch : JSString) (s : JSString) : Option JSString :=
  match dropLit? (lit "://") s with
  | none => none
  | some r =>
    match r.dropWhile (fun c => !isQuote c) with
    | [] => none
    | _ :: _ =>
      let run := r.takeWhile (fun c => !isQuote c)
      if hasMarkers run then some (sch ++ lit "://" ++ run) else none

/-- The expression
`/(?:href|data-src)=["'](https?:\/\/[^"']*tiktokcdn[^"']*video_mp4[^"']*)["']/`
tried at the start of `s`; the result is group 1.  The two attribute names begin with
different code units, so at most one of them matches at a position.  `s?` is greedy: the
branch with the `s` is tried first, the branch without it on failure. -/
def urlMatchAt (s : JSString) : Option JSString :=
  let attr :=
    match dropLit? (lit "href") s with
    | some r => some r
    | none => dropLit? (lit "data-src") s
  match attr with
  | none => none
  | some r =>
    match dropLit? (lit "=") r with
    | none => none
    | some [] => none
    | some (q :: r1) =>
      if isQuote q then
        match dropLit? (lit "http") r1 with
        | none => none
        | some r2 =>
          let withS :=
            match r2 with
            | 115 :: r3 => urlBody (lit "https") r3
            | _ => none
          match withS with
          | some u => some u
          | none => urlBody (lit "http") r2
      else none

/-- Lines 64-69: `matches[0][1]` of `html.matchAll(urlRegex)`, `none` when there is no
match (`!matches.length`). -/
def urlMatch (html : JSString) : Option JSString := firstMatch urlMatchAt html

/-! ## Lines 72-74: the caption -/

/-- The lazy `(.*?)` followed by a literal, with the `s` flag: the text before the first
occurrence of `pat`. -/
def beforeFirst (pat : JSString) : JSString → Option JSString
  | [] => (dropLit? pat []).map (fun _ => [])
  | c :: cs =>
    match dropLit? pat (c :: cs) with
    | some _ => some []
    | none => (beforeFirst pat cs).map (fun g => c :: g)

/-- The expression `/<h3>(.*?)<\/h3>/s` tried at the start of `s`; the result is group 1. -/
def captionMatchAt (s : JSString) : Option JSString :=
  match dropLit? (lit "<h3>") s with
  | none => none
  | some r => beforeFirst (lit "</h3>") r

/-- Line 72: `html.match(/<h3>(.*?)<\/h3>/s)`, group 1 of the match. -/
def captionMatch (html : JSString) : Option JSString := firstMatch captionMatchAt html

/-- The part `.*?>` of `/<.*?>/` (no `s` flag) tried at the start of `s`: the number of
code units it takes.  The lazy `.*?` stops at the first `>`; `.` does not match a line
terminator. -/
def tagRest : JSString → Option Nat
  | [] => none
  | c :: cs =>
    if c = 62 then some 1
    else if isLineTerminator c then none
    else (tagRest cs).map (fun n => n + 1)

/-- The global replace `str.replace(/<.*?>/g, '')`; the counter is the number of code
units of the current match that are still to be dropped. -/
def stripTagsAux : Nat → JSString → JSString
  | _, [] => []
  | k + 1, _ :: cs => stripTagsAux k cs
  | 0, c :: cs =>
    if c = 60 then
      match tagRest cs with
      | some n => stripTagsAux n cs
      | none => c :: stripTagsAux 0 cs
    else c :: stripTagsAux 0 cs

/-- Line 74, first call: `caption.replace(/<.*?>/g, '')`. -/
def stripTags (s : JSString) : JSString := stripTagsAux 0 s

/-- Line 74: `caption.replace(/<.*?>/g, '').replace(/\s+/g, ' ').trim()`. -/
def cleanCaption (raw : JSString) : JSString :=
  trim (replaceWsRuns 32 false (stripTags raw))

/-- Lines 72-74: the caption scraped from the markup. -/
def captionOf (html : JSString) : JSString :=
  cleanCaption (match captionMatch html with
    | some g => g
    | none => lit "tiktok_video")

/-! ## Lines 77-83: the file name -/

/-- Line 77: the template string with the handle and the caption. -/
def fullTitle (user caption : JSString) : JSString :=
  lit "(CC @ " ++ user ++ lit ") " ++ caption

/-- The class `[a-zA-Z0-9_\- ]`. -/
def isKept (c : Nat) : Bool :=
  (decide (97 ≤ c) && decide (c ≤ 122)) || (decide (65 ≤ c) && decide (c ≤ 90)) ||
  (decide (48 ≤ c) && decide (c ≤ 57)) || c == 95 || c == 45 || c == 32

/-- Lines 80-82:
`fullTitle.replace(/[^a-zA-Z0-9_\- ]/g, '').replace(/\s+/g, '_').slice(0, 150)`. -/
def safeName (title : JSString) : JSString :=
  (replaceWsRuns 95 false (title.filter isKept)).take 150

/-- Line 83: the base name of `filePath`, the file is put into the videos directory. -/
def fileName (user caption : JSString) : JSString :=
  safeName (fullTitle user caption) ++ lit ".mp4"

/-! ## The run -/

/-- How the lookup request of one link (lines 42-60) can complete. -/
inductive LookupOutcome
  /-- The call `fetch` rejects. -/
  | throws
  /-- The response has `ok` false. -/
  | notOk
  /-- The body is not JSON: `response.json()` rejects. -/
  | badJson
  /-- The body is JSON; its `data` is the string `html`, or is no string (`none`), and
  then `html.matchAll` throws. -/
  | data (html : Option JSString)

/-- How the download request of one link (lines 86-97) can complete. -/
inductive DownloadOutcome
  /-- The call `fetch` rejects. -/
  | throws
  /-- The response has `ok` false. -/
  | notOk
  /-- Reading the body rejects. -/
  | bodyFails
  /-- The body is read. -/
  | body (bytes : List Nat)

/-- The outside world of one run.  The requests of the link at position `i` of the list
are answered by `lookup i` and `download i`. -/
structure World where
  /-- The content of `links.txt`, `none` when reading it fails. -/
  linksFile : Option JSString
  /-- The builtin `decodeURIComponent`, `none` when it throws. -/
  decodeURIComponent : JSString → Option JSString
  /-- The answer to the lookup request with `q` the link. -/
  lookup : Nat → JSString → LookupOutcome
  /-- The answer to the download request for a URL. -/
  download : Nat → JSString → DownloadOutcome
  /-- Whether writing the media file with the given name succeeds. -/
  writeOk : Nat → JSString → Bool
  /-- Whether the final overwrite of `links.txt` succeeds. -/
  clearOk : Bool

/-- What the run does to the outside, and what it logs. -/
inductive Event
  /-- Line 42: the lookup request of link `i` is issued. -/
  | lookup (i : Nat) (q : JSString)
  /-- Line 86: the download request of link `i` is issued. -/
  | download (i : Nat) (url : JSString)
  /-- Line 98: the media file of link `i` is written. -/
  | writeVideo (i : Nat) (name : JSString)
  /-- Line 108: `links.txt` is overwritten. -/
  | clearLinks
  /-- Line 24. -/
  | logReadError
  /-- Line 31. -/
  | logNoLinks
  /-- Line 56. -/
  | logLookupFailed (i : Nat)
  /-- Line 66: the skip path "No TikTok CDN URL found". -/
  | logNoUrl (i : Nat)
  /-- Line 94. -/
  | logDownloadFailed (i : Nat)
  /-- Line 100. -/
  | logSaved (i : Nat) (name : JSString)
  /-- Line 102: the `catch` of the iteration. -/
  | logProcessingError (i : Nat)
  /-- Line 109. -/
  | logCleared
  /-- Line 111. -/
  | logClearFailed
  deriving DecidableEq

/-- The state of a run: the content of `links.txt`, the files of the videos directory
written by the run, and the events so far. -/
structure State where
  /-- The content of `links.txt` (`none`: unreadable). -/
  linksFile : Option JSString
  /-- The media files written, the latest first. -/
  videos : List (JSString × List Nat)
  /-- The events, in the order they happened. -/
  trace : List Event

/-- One more event. -/
def State.emit (s : State) (e : Event) : State :=
  ⟨s.linksFile, s.videos, s.trace ++ [e]⟩

/-- Lines 36-103: one iteration of the loop, with its `try`/`catch` and its `continue`s. -/
def processLink (w : World) (i : Nat) (link : JSString) (s : State) : State :=
  let user := username link
  let s1 := s.emit (Event.lookup i link)
  match w.lookup i link with
  | LookupOutcome.throws => s1.emit (Event.logProcessingError i)
  | LookupOutcome.notOk => s1.emit (Event.logLookupFailed i)
  | LookupOutcome.badJson => s1.emit (Event.logProcessingError i)
  | LookupOutcome.data none => s1.emit (Event.logProcessingError i)
  | LookupOutcome.data (some html) =>
    match urlMatch html with
    | none => s1.emit (Event.logNoUrl i)
    | some u =>
      match w.decodeURIComponent u with
      | none => s1.emit (Event.logProcessingError i)
      | some videoUrl =>
        let name := fileName user (captionOf html)
        let s2 := s1.emit (Event.download i videoUrl)
        match w.download i videoUrl with
        | DownloadOutcome.throws => s2.emit (Event.logProcessingError i)
        | DownloadOutcome.notOk => s2.emit (Event.logDownloadFailed i)
        | DownloadOutcome.bodyFails => s2.emit (Event.logProcessingError i)
        | DownloadOutcome.body bytes =>
          let s3 := s2.emit (Event.writeVideo i name)
          if w.writeOk i name then
            State.emit ⟨s3.linksFile, (name, bytes) :: s3.videos, s3.trace⟩ (Event.logSaved i name)
          else s3.emit (Event.logProcessingError i)

/-- Lines 35-104: the loop over the links, `i` is the position of the next link. -/
def runLoop (w : World) : Nat → List JSString → State → State
  | _, [], s => s
  | i, l :: ls, s => runLoop w (i + 1) ls (processLink w i l s)

/-- Lines 18-113: the whole run. -/
def downloadTiktoks (w : World) : State :=
  let s0 : State := ⟨w.linksFile, [], []⟩
  match w.linksFile with
  | none => s0.emit Event.logReadError
  | some content =>
    let links := parseLinks content
    if links.isEmpty then s0.emit Event.logNoLinks
    else
      let s1 := (runLoop w 0 links s0).emit Event.clearLinks
      if w.clearOk then State.emit ⟨some [], s1.videos, s1.trace⟩ Event.logCleared
      else s1.emit Event.logClearFailed

/-- The lookup requests among the events, in the order they were issued. -/
def lookupsOf : List Event → List (Nat × JSString)
  | [] => []
  | Event.lookup i q :: es => (i, q) :: lookupsOf es
  | _ :: es => lookupsOf es

/-- The events of the iteration for the link at position `i`. -/
def linkTrace (w : World) (i : Nat) (link : JSString) : List Event :=
  (processLink w i link ⟨none, [], []⟩).trace

/-- The position of the link an event belongs to. -/
def Event.linkIndex : Event → Option Nat
  | Event.lookup i _ => some i
  | Event.download i _ => some i
  | Event.writeVideo i _ => some i
  | Event.logLookupFailed i => some i
  | Event.logNoUrl i => some i
  | Event.logDownloadFailed i => some i
  | Event.logSaved i _ => some i
  | Event.logProcessingError i => some i
  | _ => none


/-- A world for the examples: two links; the markup for the first holds no media URL, the
lookup of the second has a non-success status. -/
def exampleWorld : World :=
  ⟨some (lit "https://tiktok.com/@alice/video/1, https://tiktok.com/@bob/video/2"),
    fun u => some u,
    fun i _ => if i = 0 then LookupOutcome.data (some (lit "<p>no media</p>"))
      else LookupOutcome.notOk,
    fun _ _ => DownloadOutcome.notOk,
    fun _ _ => true,
    true⟩


/-- The flag of `replaceWsRuns` behind a piece of text. -/
def flagAfter (b : Bool) (x : JSString) : Bool :=
  match x.getLast? with
  | none => b
  | some c => isWhiteSpace c

/-- The words of a text: the pieces between the spaces that are not empty. -/
def wordsOf (s : JSString) : List JSString :=
  (split 32 s).filter (fun w => !w.isEmpty)

/-- A world for the examples: one link, and a markup whose media URL holds the two
markers in the other order. -/
def reversedMarkersWorld : World :=
  ⟨some (lit "https://tiktok.com/@alice/video/1"),
    fun u => some u,
    fun _ _ => LookupOutcome.data
      (some (lit "<a href=\"https://cdn.example/video_mp4/tiktokcdn/1.mp4\">get</a>")),
    fun _ _ => DownloadOutcome.body [0],
    fun _ _ => true,
    true⟩

/-- A world for the examples: one link, and a markup with a media anchor and an `<h3>`
that holds a tag with a line break in it. -/
def lineBreakTagWorld : World :=
  ⟨some (lit "https://tiktok.com/@alice/video/1"),
    fun u => some u,
    fun _ _ => LookupOutcome.data (some (lit
      "<a href=\"https://v.tiktokcdn.com/video_mp4/1\">get</a><h3><a\nhref=\"x\">hi</a></h3>")),
    fun _ _ => DownloadOutcome.body [0],
    fun _ _ => true,
    true⟩

/-- The markup `html` holds, behind `pre`, a match of the URL expression with group 1
`value`: `href=` or `data-src=`, a quote, `http://` or `https://` and a quote-free text
that holds `tiktokcdn` and behind it `video_mp4`, and a quote. -/
def UrlOccurrence (html pre value : JSString) : Prop :=
  ∃ attr q1 sch body q2 post,
    html = pre ++ (attr ++ 61 :: q1 :: (sch ++ (lit "://" ++ (body ++ q2 :: post)))) ∧
    (attr = lit "href" ∨ attr = lit "data-src") ∧ isQuote q1 = true ∧ isQuote q2 = true ∧
    (sch = lit "http" ∨ sch = lit "https") ∧ (∀ c ∈ body, isQuote c = false) ∧
    (∃ a b c, body = a ++ lit "tiktokcdn" ++ b ++ lit "video_mp4" ++ c) ∧
    value = sch ++ lit "://" ++ body

/-! ## Facts about the string operations -/

theorem mem_replaceWsRuns (r : Nat) (b : Bool) (s : JSString) (c : Nat)
    (h : c ∈ replaceWsRuns r b s) : c = r ∨ (c ∈ s ∧ isWhiteSpace c = false) := by
  induction s generalizing b with
  | nil => simp [replaceWsRuns] at h
  | cons d ds ih =>
    unfold replaceWsRuns at h
    by_cases hd : isWhiteSpace d = true
    · simp only [hd, if_true] at h
      cases b with
      | true =>
        simp only [if_true] at h
        rcases ih true h with h1 | h1
        · exact Or.inl h1
        · exact Or.inr ⟨List.mem_cons_of_mem _ h1.1, h1.2⟩
      | false =>
        simp only [Bool.false_eq_true, if_false, List.mem_cons] at h
        rcases h with h | h
        · exact Or.inl h
        · rcases ih true h with h1 | h1
          · exact Or.inl h1
          · exact Or.inr ⟨List.mem_cons_of_mem _ h1.1, h1.2⟩
    · simp only [hd, Bool.false_eq_true, if_false, List.mem_cons] at h
      rcases h with h2 | h2
      · right
        subst h2
        exact ⟨List.mem_cons_self _ _, by simpa using hd⟩
      · rcases ih false h2 with h1 | h1
        · exact Or.inl h1
        · exact Or.inr ⟨List.mem_cons_of_mem _ h1.1, h1.2⟩

theorem mem_safeName (t : JSString) (c : Nat) (h : c ∈ safeName t) :
    c = 95 ∨ (isKept c = true ∧ isWhiteSpace c = false) := by
  unfold safeName at h
  rcases mem_replaceWsRuns 95 false _ c (List.mem_of_mem_take h) with h1 | h1
  · exact Or.inl h1
  · exact Or.inr ⟨(List.mem_filter.mp h1.1).2, h1.2⟩

theorem length_safeName (t : JSString) : (safeName t).length ≤ 150 := by
  unfold safeName
  simp [List.length_take]

theorem split_ne_nil (sep : Nat) (s : JSString) : split sep s ≠ [] := by
  cases s with
  | nil => simp [split]
  | cons c cs =>
    unfold split
    split
    · simp
    · split <;> simp

theorem intercalate_split (sep : Nat) (s : JSString) :
    List.intercalate [sep] (split sep s) = s := by
  induction s with
  | nil => simp [split, List.intercalate, List.intersperse]
  | cons c cs ih =>
    unfold split
    by_cases hc : c = sep
    · simp only [hc, if_true]
      cases hs : split sep cs with
      | nil => exact absurd hs (split_ne_nil sep cs)
      | cons p ps =>
        rw [hs] at ih
        rw [← ih]
        simp [List.intercalate, List.intersperse]
    · simp only [hc, if_false]
      cases hs : split sep cs with
      | nil => exact absurd hs (split_ne_nil sep cs)
      | cons p ps =>
        rw [hs] at ih
        rw [← ih]
        cases ps <;> simp [List.intercalate, List.intersperse]

theorem not_mem_of_mem_split (sep : Nat) (s : JSString) :
    ∀ p ∈ split sep s, sep ∉ p := by
  induction s with
  | nil => simp [split]
  | cons c cs ih =>
    unfold split
    by_cases hc : c = sep
    · simp only [hc, if_true]
      intro p hp
      rcases List.mem_cons.mp hp with h | h
      · simp [h]
      · exact ih p h
    · simp only [hc, if_false]
      cases hs : split sep cs with
      | nil => exact absurd hs (split_ne_nil sep cs)
      | cons q qs =>
        rw [hs] at ih
        intro p hp
        simp only [] at hp
        rcases List.mem_cons.mp hp with h | h
        · subst h
          intro hm
          rcases List.mem_cons.mp hm with h1 | h1
          · exact hc h1.symm
          · exact ih q (List.mem_cons_self _ _) h1
        · exact ih p (List.mem_cons_of_mem _ h)

theorem trim_eq (s : JSString) :
    trim s = (s.dropWhile isWhiteSpace).rdropWhile isWhiteSpace := rfl

/-- The string is its trimmed form between two runs of white space. -/
theorem trim_decomp (s : JSString) :
    ∃ a b, s = a ++ trim s ++ b ∧ (∀ c ∈ a, isWhiteSpace c = true) ∧
      (∀ c ∈ b, isWhiteSpace c = true) := by
  refine ⟨s.takeWhile isWhiteSpace,
    ((s.dropWhile isWhiteSpace).reverse.takeWhile isWhiteSpace).reverse, ?_, ?_, ?_⟩
  · have h1 := List.takeWhile_append_dropWhile isWhiteSpace s
    have h2 := List.takeWhile_append_dropWhile isWhiteSpace (s.dropWhile isWhiteSpace).reverse
    have h3 : trim s ++ ((s.dropWhile isWhiteSpace).reverse.takeWhile isWhiteSpace).reverse
        = s.dropWhile isWhiteSpace := by
      unfold trim trimStart
      rw [← List.reverse_append, h2, List.reverse_reverse]
    rw [List.append_assoc, h3, h1]
  · intro c hc
    exact List.mem_takeWhile_imp hc
  · intro c hc
    exact List.mem_takeWhile_imp (List.mem_reverse.mp hc)

theorem trim_head_not_ws (s : JSString) (c : Nat) (h : (trim s).head? = some c) :
    isWhiteSpace c = false := by
  have hp : trim s <+: s.dropWhile isWhiteSpace := by
    rw [trim_eq]
    exact List.rdropWhile_prefix _ _
  obtain ⟨t, ht⟩ := hp
  cases hts : trim s with
  | nil => rw [hts] at h; simp at h
  | cons d ds =>
    rw [hts] at h ht
    simp only [List.head?_cons, Option.some.injEq] at h
    subst h
    have h2 := List.head?_dropWhile_not isWhiteSpace s
    rw [← ht] at h2
    simpa using h2

theorem trim_last_not_ws (s : JSString) (c : Nat) (h : (trim s).getLast? = some c) :
    isWhiteSpace c = false := by
  have hne : trim s ≠ [] := by
    intro h0
    rw [h0] at h
    simp at h
  have h1 := List.rdropWhile_last_not isWhiteSpace (s.dropWhile isWhiteSpace)
    (by rw [← trim_eq]; exact hne)
  have h2 : (trim s).getLast hne = c := by
    rw [List.getLast?_eq_getLast _ hne] at h
    exact Option.some.inj h
  have h3 : ((s.dropWhile isWhiteSpace).rdropWhile isWhiteSpace).getLast
      (by rw [← trim_eq]; exact hne) = c := h2
  rw [h3] at h1
  simpa using h1

theorem mem_of_mem_trim (s : JSString) (c : Nat) (h : c ∈ trim s) : c ∈ s := by
  obtain ⟨a, b, hab, -, -⟩ := trim_decomp s
  rw [hab]
  simp [h]

theorem dropLit?_eq_some (p s r : JSString) : dropLit? p s = some r ↔ s = p ++ r := by
  induction p generalizing s with
  | nil => simp [dropLit?, eq_comm]
  | cons a p ih =>
    cases s with
    | nil => simp [dropLit?]
    | cons c cs =>
      unfold dropLit?
      by_cases h : a = c
      · simp [h, ih]
      · simp only [h, if_false, List.cons_append, List.cons.injEq]
        constructor
        · intro h0
          cases h0
        · intro h1
          exact absurd h1.1.symm h

theorem dropLit?_append (p r : JSString) : dropLit? p (p ++ r) = some r :=
  (dropLit?_eq_some p (p ++ r) r).mpr rfl

/-- When the matcher fails at every position, the search fails. -/
theorem firstMatch_eq_none {α : Type} (m : JSString → Option α) (s : JSString)
    (h : ∀ a b, s = a ++ b → m b = none) : firstMatch m s = none := by
  induction s with
  | nil => exact h [] [] rfl
  | cons c cs ih =>
    unfold firstMatch
    rw [h [] (c :: cs) rfl]
    exact ih (fun a b hab => h (c :: a) b (by rw [hab]; rfl))

/-- When the matcher succeeds at a position and fails at every earlier one, the search
gives the result at that position. -/
theorem firstMatch_eq_some {α : Type} (m : JSString → Option α) (pre suf : JSString) (r : α)
    (hsuf : m suf = some r)
    (hpre : ∀ a b, pre = a ++ b → b ≠ [] → m (b ++ suf) = none) :
    firstMatch m (pre ++ suf) = some r := by
  induction pre with
  | nil =>
    cases suf with
    | nil => exact hsuf
    | cons c cs => simp [firstMatch, hsuf]
  | cons c cs ih =>
    have h1 : m (c :: cs ++ suf) = none := hpre [] (c :: cs) rfl (by simp)
    have h2 : firstMatch m (c :: cs ++ suf) = firstMatch m (cs ++ suf) := by
      simp only [List.cons_append] at h1 ⊢
      rw [firstMatch, h1]
    rw [h2]
    exact ih (fun a b hab hb => hpre (c :: a) b (by rw [hab]; rfl) hb)

/-- A successful search: the position of the match and the failures before it. -/
theorem firstMatch_some_decomp {α : Type} (m : JSString → Option α) (s : JSString) (r : α)
    (h : firstMatch m s = some r) :
    ∃ pre suf, s = pre ++ suf ∧ m suf = some r ∧
      ∀ a b, pre = a ++ b → b ≠ [] → m (b ++ suf) = none := by
  induction s with
  | nil =>
    refine ⟨[], [], rfl, h, ?_⟩
    intro a b hab hb
    simp at hab
    exact absurd hab.2 hb
  | cons c cs ih =>
    unfold firstMatch at h
    cases hm : m (c :: cs) with
    | some r1 =>
      rw [hm] at h
      refine ⟨[], c :: cs, rfl, by rw [hm]; exact h, ?_⟩
      intro a b hab hb
      simp at hab
      exact absurd hab.2 hb
    | none =>
      rw [hm] at h
      obtain ⟨pre, suf, hs, hsuf, hpre⟩ := ih h
      refine ⟨c :: pre, suf, by rw [hs]; rfl, hsuf, ?_⟩
      intro a b hab hb
      rcases List.cons_eq_append_iff.mp hab with ⟨ha, hb1⟩ | ⟨a1, ha, hb1⟩
      · rw [hb1, List.cons_append, ← hs]
        exact hm
      · exact hpre a1 b hb1 hb

theorem firstMatch_cons {α : Type} (m : JSString → Option α) (c : Nat) (cs : JSString) :
    firstMatch m (c :: cs) =
      match m (c :: cs) with
      | some r => some r
      | none => firstMatch m cs := rfl

/-- A failed search: the matcher fails at every position. -/
theorem firstMatch_none_all {α : Type} (m : JSString → Option α) (s : JSString)
    (h : firstMatch m s = none) : ∀ a b, s = a ++ b → m b = none := by
  induction s with
  | nil =>
    intro a b hab
    have hb : b = [] := by
      have := List.append_eq_nil.mp hab.symm
      exact this.2
    rw [hb]
    exact h
  | cons c cs ih =>
    rw [firstMatch_cons] at h
    cases hm : m (c :: cs) with
    | some r => rw [hm] at h; simp at h
    | none =>
      rw [hm] at h
      intro a b hab
      rcases List.cons_eq_append_iff.mp hab with ⟨-, hb1⟩ | ⟨a1, -, hb1⟩
      · rw [hb1]
        exact hm
      · exact ih h a1 b hb1

/-- A success of the matcher somewhere makes the search succeed. -/
theorem firstMatch_some_exists {α : Type} (m : JSString → Option α) (s : JSString)
    (h : ∃ a b, s = a ++ b ∧ (m b).isSome = true) : (firstMatch m s).isSome = true := by
  cases hf : firstMatch m s with
  | some r => rfl
  | none =>
    obtain ⟨a, b, hab, hb⟩ := h
    rw [firstMatch_none_all m s hf a b hab] at hb
    simp at hb

theorem replaceWsRuns_append (r : Nat) (b : Bool) (x y : JSString) :
    replaceWsRuns r b (x ++ y) = replaceWsRuns r b x ++ replaceWsRuns r (flagAfter b x) y := by
  induction x generalizing b with
  | nil => simp [replaceWsRuns, flagAfter]
  | cons c cs ih =>
    have hflag : ∀ b1 : Bool, flagAfter b (c :: cs) = flagAfter (isWhiteSpace c) cs := by
      intro b1
      cases cs with
      | nil => simp [flagAfter]
      | cons d ds =>
        simp only [flagAfter, List.getLast?_cons_cons]
        cases hl : (d :: ds).getLast? with
        | none => simp at hl
        | some e => rfl
    simp only [List.cons_append, replaceWsRuns]
    by_cases hc : isWhiteSpace c = true
    · cases b <;> simp [hc, ih, hflag true]
    · have hc2 : isWhiteSpace c = false := by simpa using hc
      simp [hc2, ih, hflag true]

theorem length_replaceWsRuns_le (r : Nat) (b : Bool) (s : JSString) :
    (replaceWsRuns r b s).length ≤ s.length := by
  induction s generalizing b with
  | nil => simp [replaceWsRuns]
  | cons c cs ih =>
    unfold replaceWsRuns
    by_cases hc : isWhiteSpace c = true
    · cases b
      · simp only [hc, if_true, Bool.false_eq_true, if_false, List.length_cons]
        have := ih true
        omega
      · simp only [hc, if_true, List.length_cons]
        have := ih true
        omega
    · have hc2 : isWhiteSpace c = false := by simpa using hc
      simp only [hc2, Bool.false_eq_true, if_false, List.length_cons]
      have := ih false
      omega

/-- Text without white space goes through `replaceWsRuns` unchanged. -/
theorem replaceWsRuns_no_ws (r : Nat) (b : Bool) (s : JSString)
    (h : ∀ c ∈ s, isWhiteSpace c = false) : replaceWsRuns r b s = s := by
  induction s generalizing b with
  | nil => simp [replaceWsRuns]
  | cons c cs ih =>
    have hc : isWhiteSpace c = false := h c (List.mem_cons_self _ _)
    simp [replaceWsRuns, hc, ih false (fun d hd => h d (List.mem_cons_of_mem _ hd))]

theorem flagAfter_no_ws (b : Bool) (s : JSString) (hne : s ≠ [])
    (h : ∀ c ∈ s, isWhiteSpace c = false) : flagAfter b s = false := by
  unfold flagAfter
  cases hl : s.getLast? with
  | none => simp [List.getLast?_eq_none_iff] at hl; exact absurd hl hne
  | some c => exact h c (List.mem_of_getLast?_eq_some hl)

/-- The stem of the file name: `CC_`, then the kept code units of the handle, one space
and the kept code units of the caption with the runs of spaces replaced, cut at 150. -/
theorem safeName_fullTitle (u c : JSString) :
    safeName (fullTitle u c) =
      (lit "CC_" ++ replaceWsRuns 95 true (u.filter isKept ++ 32 :: c.filter isKept)).take
        150 := by
  have h1 : (lit "(CC @ ").filter isKept = lit "CC  " := by decide
  have h2 : (lit ") ").filter isKept = [32] := by decide
  have h3 : replaceWsRuns 95 false (lit "CC  ") = lit "CC_" := by decide
  have h4 : flagAfter false (lit "CC  ") = true := by decide
  unfold safeName fullTitle
  rw [List.filter_append, List.filter_append, List.filter_append, h1, h2, List.append_assoc,
    List.append_assoc, replaceWsRuns_append, h3, h4]
  rfl

theorem userMatchAt_eq_some (s g : JSString) :
    userMatchAt s = some g ↔
      ∃ post, s = lit "tiktok.com/@" ++ g ++ post ∧ g ≠ [] ∧ 47 ∉ g ∧
        (post = [] ∨ post.head? = some 47) := by
  unfold userMatchAt
  constructor
  · intro h
    cases hd : dropLit? (lit "tiktok.com/@") s with
    | none => rw [hd] at h; simp at h
    | some r =>
      rw [hd] at h
      simp only [] at h
      have hs := (dropLit?_eq_some _ _ _).mp hd
      by_cases he : (r.takeWhile (fun c => c != 47)).isEmpty = true
      · simp [he] at h
      · simp only [he, Bool.false_eq_true, if_false, Option.some.injEq] at h
        refine ⟨r.dropWhile (fun c => c != 47), ?_, ?_, ?_, ?_⟩
        · rw [hs, ← h, List.append_assoc, List.takeWhile_append_dropWhile]
        · intro h0
          rw [← h] at h0
          rw [h0] at he
          simp at he
        · intro hm
          rw [← h] at hm
          have := List.mem_takeWhile_imp hm
          simp at this
        · have h2 := List.head?_dropWhile_not (fun c => c != 47) r
          cases hdw : r.dropWhile (fun c => c != 47) with
          | nil => exact Or.inl rfl
          | cons d ds =>
            rw [hdw] at h2
            simp only [List.head?_cons] at h2
            right
            have : d = 47 := by simpa using h2
            simp [this]
  · rintro ⟨post, hs, hne, h47, hpost⟩
    rw [hs, List.append_assoc, dropLit?_append]
    simp only []
    have htw : (g ++ post).takeWhile (fun c => c != 47) = g := by
      rw [List.takeWhile_append_of_pos]
      · rcases hpost with hp | hp
        · simp [hp]
        · cases post with
          | nil => simp
          | cons d ds =>
            simp only [List.head?_cons, Option.some.injEq] at hp
            simp [hp]
      · intro a ha
        have : a ≠ 47 := fun h0 => h47 (h0 ▸ ha)
        simpa using this
    rw [htw]
    cases g with
    | nil => exact absurd rfl hne
    | cons a g1 => simp

theorem userMatchAt_isSome (c : Nat) (rest : JSString) (hc : c ≠ 47) :
    ∃ g, userMatchAt (lit "tiktok.com/@" ++ c :: rest) = some g := by
  refine ⟨c :: rest.takeWhile (fun d => d != 47), ?_⟩
  unfold userMatchAt
  rw [dropLit?_append]
  simp [hc]

/-! ## Facts about the run -/

theorem lookupsOf_append (xs ys : List Event) :
    lookupsOf (xs ++ ys) = lookupsOf xs ++ lookupsOf ys := by
  induction xs with
  | nil => rfl
  | cons e es ih => cases e <;> simp [lookupsOf, ih]

theorem processLink_trace (w : World) (i : Nat) (link : JSString) (s : State) :
    (processLink w i link s).trace = s.trace ++ linkTrace w i link := by
  unfold linkTrace processLink
  simp only []
  repeat' split
  all_goals simp [State.emit]

theorem processLink_linksFile (w : World) (i : Nat) (link : JSString) (s : State) :
    (processLink w i link s).linksFile = s.linksFile := by
  unfold processLink
  simp only []
  repeat' split
  all_goals simp [State.emit]

theorem linkTrace_lookups (w : World) (i : Nat) (link : JSString) :
    lookupsOf (linkTrace w i link) = [(i, link)] := by
  unfold linkTrace processLink
  simp only []
  repeat' split
  all_goals simp [State.emit, lookupsOf]

theorem linkTrace_index (w : World) (i : Nat) (link : JSString) :
    ∀ e ∈ linkTrace w i link, e.linkIndex = some i := by
  unfold linkTrace processLink
  simp only []
  repeat' split
  all_goals simp [State.emit, Event.linkIndex]

theorem runLoop_trace (w : World) (links : List JSString) :
    ∀ (i : Nat) (s : State), (runLoop w i links s).trace =
      s.trace ++ (links.enumFrom i).flatMap (fun p => linkTrace w p.1 p.2) := by
  induction links with
  | nil => intro i s; simp [runLoop]
  | cons l ls ih =>
    intro i s
    simp [runLoop, ih, processLink_trace, List.enumFrom_cons]

theorem runLoop_linksFile (w : World) (links : List JSString) :
    ∀ (i : Nat) (s : State), (runLoop w i links s).linksFile = s.linksFile := by
  induction links with
  | nil => intro i s; simp [runLoop]
  | cons l ls ih =>
    intro i s
    simp [runLoop, ih, processLink_linksFile]

theorem lookupsOf_flatMap (w : World) (ps : List (Nat × JSString)) :
    lookupsOf (ps.flatMap (fun p => linkTrace w p.1 p.2)) = ps := by
  induction ps with
  | nil => rfl
  | cons p ps ih =>
    simp [List.flatMap_cons, lookupsOf_append, linkTrace_lookups, ih]

/-- The events of a run whose link source is readable and holds a link. -/
theorem downloadTiktoks_trace (w : World) (content : JSString)
    (hread : w.linksFile = some content) (hne : parseLinks content ≠ []) :
    (downloadTiktoks w).trace =
      ((parseLinks content).enumFrom 0).flatMap (fun p => linkTrace w p.1 p.2) ++
        [Event.clearLinks, if w.clearOk then Event.logCleared else Event.logClearFailed] := by
  unfold downloadTiktoks
  simp only [hread]
  have h : (parseLinks content).isEmpty = false := by
    cases hp : parseLinks content with
    | nil => exact absurd hp hne
    | cons a b => rfl
  simp only [h, Bool.false_eq_true, if_false]
  cases hc : w.clearOk <;> simp [State.emit, runLoop_trace]

/-! ## Facts about the file name and the caption -/

theorem split_cons_ne (sep c : Nat) (cs : JSString) (hc : c ≠ sep) :
    ∃ p ps, split sep cs = p :: ps ∧ split sep (c :: cs) = (c :: p) :: ps := by
  cases hs : split sep cs with
  | nil => exact absurd hs (split_ne_nil sep cs)
  | cons p ps =>
    refine ⟨p, ps, rfl, ?_⟩
    rw [split]
    simp [hc, hs]

theorem wordsOf_cons_space (cs : JSString) : wordsOf (32 :: cs) = wordsOf cs := by
  simp [wordsOf, split]

theorem wordsOf_cons_ne (c : Nat) (cs : JSString) (hc : c ≠ 32) :
    ∃ p l, wordsOf (c :: cs) = (c :: p) :: l ∧
      (wordsOf cs = if p.isEmpty then l else p :: l) := by
  obtain ⟨p, ps, h1, h2⟩ := split_cons_ne 32 c cs hc
  refine ⟨p, ps.filter (fun w => !w.isEmpty), ?_, ?_⟩
  · simp [wordsOf, h2]
  · cases p <;> simp [wordsOf, h1]

theorem wordsOf_eq_nil (s : JSString) (h : wordsOf s = []) : ∀ x ∈ s, x = 32 := by
  induction s with
  | nil => simp
  | cons c cs ih =>
    by_cases hc : c = 32
    · subst hc
      rw [wordsOf_cons_space] at h
      intro x hx
      rcases List.mem_cons.mp hx with h1 | h1
      · exact h1
      · exact ih h x h1
    · obtain ⟨p, l, h1, -⟩ := wordsOf_cons_ne c cs hc
      rw [h1] at h
      cases h

theorem replaceWsRuns_false (r : Nat) (s : JSString) :
    replaceWsRuns r false s =
      match s with
      | [] => []
      | c :: _ => if isWhiteSpace c then r :: replaceWsRuns r true s else replaceWsRuns r true s := by
  cases s with
  | nil => simp [replaceWsRuns]
  | cons c cs =>
    by_cases hc : isWhiteSpace c = true
    · simp [replaceWsRuns, hc]
    · have hc2 : isWhiteSpace c = false := by simpa using hc
      simp [replaceWsRuns, hc2]

theorem intercalate_cons_cons (sep : JSString) (c : Nat) (p : JSString) (l : List JSString) :
    List.intercalate sep ((c :: p) :: l) = c :: List.intercalate sep (p :: l) := by
  cases l <;> simp [List.intercalate, List.intersperse]

theorem intercalate_singleton_cons (c : Nat) (sep : JSString) (l : List JSString)
    (hl : l ≠ []) :
    List.intercalate sep ([c] :: l) = c :: (sep ++ List.intercalate sep l) := by
  cases l with
  | nil => exact absurd rfl hl
  | cons x xs => simp [List.intercalate, List.intersperse]

theorem getLast?_all_spaces (c : Nat) (ds : JSString) (h : ∀ x ∈ ds, x = 32) :
    (c :: 32 :: ds).getLast? = some 32 := by
  rw [List.getLast?_cons_cons]
  cases hl : (32 :: ds).getLast? with
  | none => simp at hl
  | some y =>
    have hy := List.mem_of_getLast?_eq_some hl
    rcases List.mem_cons.mp hy with h1 | h1
    · rw [h1]
    · rw [h y h1]

/-- Replacing the runs of spaces behind a space: the words joined by underscores, and one
more underscore for the run of spaces at the end, if there is a word before it. -/
theorem replaceWsRuns_words (s : JSString)
    (hs : ∀ x ∈ s, isWhiteSpace x = true → x = 32) :
    replaceWsRuns 95 true s =
      List.intercalate [95] (wordsOf s) ++
        (if wordsOf s ≠ [] ∧ s.getLast? = some 32 then [95] else []) := by
  induction s with
  | nil => simp [replaceWsRuns, wordsOf, split, List.intercalate]
  | cons c cs ih =>
    have ih1 := ih (fun x hx => hs x (List.mem_cons_of_mem _ hx))
    have hsp : isWhiteSpace 32 = true := by decide
    by_cases hc : c = 32
    · subst hc
      have h1 : replaceWsRuns 95 true (32 :: cs) = replaceWsRuns 95 true cs := by
        simp [replaceWsRuns, hsp]
      rw [h1, ih1, wordsOf_cons_space]
      cases cs with
      | nil => simp [wordsOf, split]
      | cons d ds => rw [List.getLast?_cons_cons]
    · have hcw : isWhiteSpace c = false := by
        cases hw : isWhiteSpace c with
        | false => rfl
        | true => exact absurd (hs c (List.mem_cons_self _ _) hw) hc
      have h1 : replaceWsRuns 95 true (c :: cs) = c :: replaceWsRuns 95 false cs := by
        simp [replaceWsRuns, hcw]
      rw [h1, replaceWsRuns_false]
      cases cs with
      | nil => simp [wordsOf, split, hc, List.intercalate]
      | cons d ds =>
        by_cases hd : d = 32
        · subst hd
          have hw : wordsOf (c :: 32 :: ds) = [c] :: wordsOf ds := by
            simp [wordsOf, split, hc]
          simp only [hsp, if_true]
          rw [ih1, wordsOf_cons_space, hw]
          by_cases hwd : wordsOf ds = []
          · have hall := wordsOf_eq_nil ds hwd
            rw [getLast?_all_spaces c ds hall]
            simp [hwd, List.intercalate]
          · rw [intercalate_singleton_cons c [95] _ hwd, List.getLast?_cons_cons]
            simp [hwd]
        · have hdw : isWhiteSpace d = false := by
            cases hw : isWhiteSpace d with
            | false => rfl
            | true =>
              exact absurd (hs d (List.mem_cons_of_mem _ (List.mem_cons_self _ _)) hw) hd
          obtain ⟨p, ps, hp1, hp2⟩ := split_cons_ne 32 d ds hd
          obtain ⟨q, qs, hq1, hq2⟩ := split_cons_ne 32 c (d :: ds) hc
          rw [hp2] at hq1
          have hq : q = d :: p ∧ qs = ps := by
            simpa [eq_comm] using hq1
          have hw1 : wordsOf (d :: ds) = (d :: p) :: ps.filter (fun w => !w.isEmpty) := by
            simp [wordsOf, hp2]
          have hw2 : wordsOf (c :: d :: ds) =
              (c :: d :: p) :: ps.filter (fun w => !w.isEmpty) := by
            simp [wordsOf, hq2, hq.1, hq.2]
          simp only [hdw, Bool.false_eq_true, if_false]
          rw [ih1, hw1, hw2, intercalate_cons_cons, intercalate_cons_cons,
            intercalate_cons_cons, List.getLast?_cons_cons]
          simp

theorem beforeFirst_some (p s g : JSString) (h : beforeFirst p s = some g) :
    ∃ rest, s = g ++ p ++ rest := by
  induction s generalizing g with
  | nil =>
    unfold beforeFirst at h
    cases hd : dropLit? p [] with
    | none => rw [hd] at h; simp at h
    | some r =>
      rw [hd] at h
      simp only [Option.map_some', Option.some.injEq] at h
      have := (dropLit?_eq_some p [] r).mp hd
      exact ⟨r, by rw [← h]; simpa using this⟩
  | cons c cs ih =>
    unfold beforeFirst at h
    cases hd : dropLit? p (c :: cs) with
    | some r =>
      rw [hd] at h
      simp only [Option.some.injEq] at h
      have := (dropLit?_eq_some p (c :: cs) r).mp hd
      exact ⟨r, by rw [← h]; simpa using this⟩
    | none =>
      rw [hd] at h
      cases hb : beforeFirst p cs with
      | none => rw [hb] at h; simp at h
      | some g1 =>
        rw [hb] at h
        simp only [Option.map_some', Option.some.injEq] at h
        obtain ⟨rest, hr⟩ := ih g1 hb
        exact ⟨rest, by rw [← h, hr]; simp⟩

theorem captionMatchAt_some (s g : JSString) (h : captionMatchAt s = some g) :
    ∃ rest, s = lit "<h3>" ++ g ++ lit "</h3>" ++ rest := by
  unfold captionMatchAt at h
  cases hd : dropLit? (lit "<h3>") s with
  | none => rw [hd] at h; simp at h
  | some r =>
    rw [hd] at h
    simp only [] at h
    obtain ⟨rest, hr⟩ := beforeFirst_some _ _ _ h
    have := (dropLit?_eq_some _ _ _).mp hd
    exact ⟨rest, by rw [this, hr]; simp⟩

theorem captionMatch_none (html : JSString)
    (hno : ¬ ∃ a g b, html = a ++ lit "<h3>" ++ g ++ lit "</h3>" ++ b) :
    captionMatch html = none := by
  apply firstMatch_eq_none
  intro a b hab
  cases hm : captionMatchAt b with
  | none => rfl
  | some g =>
    exfalso
    obtain ⟨rest, hr⟩ := captionMatchAt_some b g hm
    exact hno ⟨a, g, rest, by rw [hab, hr]; simp⟩

theorem afterFirst_none (p s : JSString) (h : afterFirst p s = none) :
    ¬ ∃ a b, s = a ++ p ++ b := by
  rintro ⟨a, b, hab⟩
  have := firstMatch_none_all (dropLit? p) s h a (p ++ b) (by rw [hab, List.append_assoc])
  rw [dropLit?_append] at this
  cases this

theorem username_tiktok_link (h rest : JSString) (hne : h ≠ []) (h47 : 47 ∉ h) :
    username (lit "https://tiktok.com/@" ++ h ++ 47 :: rest) = h := by
  have hk : lit "https://tiktok.com/@" = lit "https://" ++ lit "tiktok.com/@" := by decide
  have hm : userMatch (lit "https://tiktok.com/@" ++ h ++ 47 :: rest) = some h := by
    rw [hk, List.append_assoc, List.append_assoc]
    apply firstMatch_eq_some
    · rw [← List.append_assoc]
      exact (userMatchAt_eq_some _ h).mpr ⟨47 :: rest, rfl, hne, h47, Or.inr rfl⟩
    · intro a b hab hb
      have hb2 : b ∈ (lit "https://").tails := (List.mem_tails _ _).mpr ⟨a, hab.symm⟩
      have ht : (lit "https://").tails = [lit "https://", lit "ttps://", lit "tps://",
          lit "ps://", lit "s://", lit "://", lit "//", lit "/", []] := by decide
      rw [ht] at hb2
      simp only [List.mem_cons, List.mem_singleton, List.not_mem_nil, or_false] at hb2
      rcases hb2 with h1 | h1 | h1 | h1 | h1 | h1 | h1 | h1 | h1
      all_goals first
        | exact absurd h1 hb
        | (subst h1; simp [userMatchAt, dropLit?, lit])
  unfold username
  rw [hm]

/-! ## Facts about the URL expression -/

theorem afterFirst_some (p s r : JSString) (h : afterFirst p s = some r) :
    ∃ pre, s = pre ++ p ++ r ∧
      ∀ a b, pre = a ++ b → b ≠ [] → dropLit? p (b ++ (p ++ r)) = none := by
  obtain ⟨pre, suf, hs, hsuf, hpre⟩ := firstMatch_some_decomp (dropLit? p) s r h
  have h1 := (dropLit?_eq_some p suf r).mp hsuf
  subst h1
  exact ⟨pre, by rw [hs, List.append_assoc], hpre⟩

theorem afterFirst_isSome (p a b : JSString) : (afterFirst p (a ++ p ++ b)).isSome = true := by
  apply firstMatch_some_exists
  exact ⟨a, p ++ b, by rw [List.append_assoc], by rw [dropLit?_append]; rfl⟩

theorem hasMarkers_iff (run : JSString) :
    hasMarkers run = true ↔
      ∃ a b c, run = a ++ lit "tiktokcdn" ++ b ++ lit "video_mp4" ++ c := by
  unfold hasMarkers
  constructor
  · intro h
    cases h1 : afterFirst (lit "tiktokcdn") run with
    | none => rw [h1] at h; simp at h
    | some r =>
      rw [h1] at h
      simp only [] at h
      obtain ⟨pre, hrun, -⟩ := afterFirst_some _ _ _ h1
      cases h2 : afterFirst (lit "video_mp4") r with
      | none => rw [h2] at h; simp at h
      | some r2 =>
        obtain ⟨pre2, hr, -⟩ := afterFirst_some _ _ _ h2
        exact ⟨pre, pre2, r2, by rw [hrun, hr]; simp⟩
  · rintro ⟨a, b, c, hrun⟩
    have hs : (afterFirst (lit "tiktokcdn") run).isSome = true := by
      rw [hrun, List.append_assoc, List.append_assoc]
      exact afterFirst_isSome _ _ _
    cases h1 : afterFirst (lit "tiktokcdn") run with
    | none => rw [h1] at hs; simp at hs
    | some r =>
      simp only []
      obtain ⟨pre, hrun2, hleft⟩ := afterFirst_some _ _ _ h1
      have heq : pre ++ (lit "tiktokcdn" ++ r) =
          a ++ (lit "tiktokcdn" ++ (b ++ lit "video_mp4" ++ c)) := by
        rw [← List.append_assoc, ← hrun2, hrun]
        simp
      have hlen : (lit "tiktokcdn").length = 9 := by decide
      rcases List.append_eq_append_iff.mp heq with ⟨a1, ha, h2⟩ | ⟨c1, hpre, h2⟩
      · -- the first occurrence lies at or before the given one
        have h3 := congrArg (List.drop 9) h2
        rw [← hlen, List.drop_left, ← List.append_assoc,
          List.drop_append_of_le_length (by simp)] at h3
        rw [h3]
        generalize List.drop (lit "tiktokcdn").length (a1 ++ lit "tiktokcdn") = x
        have e : x ++ (b ++ lit "video_mp4" ++ c) = (x ++ b) ++ lit "video_mp4" ++ c := by
          simp
        rw [e]
        exact afterFirst_isSome _ _ _
      · by_cases hc1 : c1 = []
        · rw [hc1, List.nil_append] at h2
          have h3 := List.append_cancel_left h2
          rw [← h3]
          exact afterFirst_isSome _ _ _
        · have := hleft a c1 hpre hc1
          rw [← h2, dropLit?_append] at this
          cases this

theorem urlBody_eq_some (sch s v : JSString) :
    urlBody sch s = some v ↔
      ∃ body q2 post, s = lit "://" ++ (body ++ q2 :: post) ∧ isQuote q2 = true ∧
        (∀ c ∈ body, isQuote c = false) ∧ hasMarkers body = true ∧
        v = sch ++ lit "://" ++ body := by
  unfold urlBody
  constructor
  · intro h
    cases hd : dropLit? (lit "://") s with
    | none => rw [hd] at h; simp at h
    | some r =>
      rw [hd] at h
      simp only [] at h
      have hs := (dropLit?_eq_some _ _ _).mp hd
      have htd := List.takeWhile_append_dropWhile (fun c => !isQuote c) r
      have hq := List.head?_dropWhile_not (fun c => !isQuote c) r
      cases hdw : r.dropWhile (fun c => !isQuote c) with
      | nil => rw [hdw] at h; simp at h
      | cons q2 post =>
        rw [hdw] at h htd hq
        simp only [] at h
        by_cases hm : hasMarkers (r.takeWhile (fun c => !isQuote c)) = true
        · simp only [hm, if_true, Option.some.injEq] at h
          refine ⟨r.takeWhile (fun c => !isQuote c), q2, post, ?_, ?_, ?_, hm, h.symm⟩
          · rw [hs, htd]
          · simpa using hq
          · intro c hc
            have := List.mem_takeWhile_imp hc
            simpa using this
        · simp [hm] at h
  · rintro ⟨body, q2, post, hs, hq2, hbody, hm, hv⟩
    rw [hs, dropLit?_append]
    have h1 : (body ++ q2 :: post).dropWhile (fun c => !isQuote c) = q2 :: post := by
      rw [List.dropWhile_append_of_pos]
      · simp [List.dropWhile, hq2]
      · intro c hc
        simp [hbody c hc]
    have h2 : (body ++ q2 :: post).takeWhile (fun c => !isQuote c) = body := by
      rw [List.takeWhile_append_of_pos]
      · simp [List.takeWhile, hq2]
      · intro c hc
        simp [hbody c hc]
    simp only [h1, h2, hm, if_true, hv]

/-- The URL expression matches at the start of `s` with group 1 `v` exactly when `s`
begins with an occurrence of the described form. -/
theorem urlMatchAt_eq_some (s v : JSString) :
    urlMatchAt s = some v ↔ UrlOccurrence s [] v := by
  constructor
  · intro h
    unfold urlMatchAt at h
    simp only [] at h
    have key : ∀ r, (s = lit "href" ++ r ∨ s = lit "data-src" ++ r) →
        (match dropLit? (lit "=") r with
          | none => none
          | some [] => none
          | some (q :: r1) =>
            if isQuote q then
              match dropLit? (lit "http") r1 with
              | none => none
              | some r2 =>
                match (match r2 with
                  | 115 :: r3 => urlBody (lit "https") r3
                  | _ => none) with
                | some u => some u
                | none => urlBody (lit "http") r2
            else none) = some v → UrlOccurrence s [] v := by
      intro r hattr h
      cases hd : dropLit? (lit "=") r with
      | none => rw [hd] at h; simp at h
      | some r0 =>
        rw [hd] at h
        have hr := (dropLit?_eq_some _ _ _).mp hd
        cases r0 with
        | nil => simp at h
        | cons q r1 =>
          simp only [] at h
          by_cases hq : isQuote q = true
          · simp only [hq, if_true] at h
            cases hd2 : dropLit? (lit "http") r1 with
            | none => rw [hd2] at h; simp at h
            | some r2 =>
              rw [hd2] at h
              simp only [] at h
              have hr1 := (dropLit?_eq_some _ _ _).mp hd2
              have hfin : ∀ sch rest, (sch = lit "http" ∨ sch = lit "https") →
                  r1 = sch ++ rest → urlBody sch rest = some v → UrlOccurrence s [] v := by
                intro sch rest hsch hrest hub
                obtain ⟨body, q2, post, hs2, hq2, hbody, hm, hv⟩ :=
                  (urlBody_eq_some sch rest v).mp hub
                refine ⟨if s = lit "href" ++ r then lit "href" else lit "data-src", q, sch,
                  body, q2, post, ?_, ?_, hq, hq2, hsch, hbody, (hasMarkers_iff body).mp hm, hv⟩
                · rw [List.nil_append, ← hs2, ← hrest]
                  have he : (61 : Nat) :: q :: r1 = r := by
                    rw [hr]
                    rfl
                  rw [he]
                  by_cases hh : s = lit "href" ++ r
                  · simp only [hh, if_true]
                  · simp only [hh, if_false]
                    rcases hattr with h0 | h0
                    · exact absurd h0 hh
                    · exact h0
                · by_cases hh : s = lit "href" ++ r
                  · simp [hh]
                  · simp [hh]
              cases hws : (match r2 with
                  | 115 :: r3 => urlBody (lit "https") r3
                  | _ => none) with
              | some u =>
                rw [hws] at h
                simp only [Option.some.injEq] at h
                subst h
                cases r2 with
                | nil => simp at hws
                | cons x r3 =>
                  by_cases hx : x = 115
                  · subst hx
                    simp only [] at hws
                    exact hfin (lit "https") r3 (Or.inr rfl) (by rw [hr1]; rfl) hws
                  · exfalso
                    revert hws
                    split
                    · rename_i heq
                      simp only [List.cons.injEq] at heq
                      exact absurd heq.1 hx
                    · simp
              | none =>
                rw [hws] at h
                simp only [] at h
                exact hfin (lit "http") r2 (Or.inl rfl) hr1 h
          · simp [hq] at h
    cases hd : dropLit? (lit "href") s with
    | some r =>
      rw [hd] at h
      exact key r (Or.inl ((dropLit?_eq_some _ _ _).mp hd)) h
    | none =>
      rw [hd] at h
      simp only [] at h
      cases hd2 : dropLit? (lit "data-src") s with
      | none => rw [hd2] at h; simp at h
      | some r =>
        rw [hd2] at h
        exact key r (Or.inr ((dropLit?_eq_some _ _ _).mp hd2)) h
  · rintro ⟨attr, q1, sch, body, q2, post, hs, hattr, hq1, hq2, hsch, hbody, hmark, hv⟩
    rw [List.nil_append] at hs
    have hm := (hasMarkers_iff body).mpr hmark
    have hub : urlBody sch (lit "://" ++ (body ++ q2 :: post)) = some v :=
      (urlBody_eq_some _ _ _).mpr ⟨body, q2, post, rfl, hq2, hbody, hm, hv⟩
    have hrest : (match dropLit? (lit "=") (61 :: q1 :: (sch ++ (lit "://" ++ (body ++ q2 :: post)))) with
          | none => none
          | some [] => none
          | some (q :: r1) =>
            if isQuote q then
              match dropLit? (lit "http") r1 with
              | none => none
              | some r2 =>
                match (match r2 with
                  | 115 :: r3 => urlBody (lit "https") r3
                  | _ => none) with
                | some u => some u
                | none => urlBody (lit "http") r2
            else none) = some v := by
      have he : dropLit? (lit "=") (61 :: q1 :: (sch ++ (lit "://" ++ (body ++ q2 :: post)))) =
          some (q1 :: (sch ++ (lit "://" ++ (body ++ q2 :: post)))) :=
        dropLit?_append (lit "=") _
      rw [he]
      simp only [hq1, if_true]
      rcases hsch with h0 | h0
      · subst h0
        rw [dropLit?_append]
        simp only []
        have h58 : lit "://" ++ (body ++ q2 :: post) = 58 :: (lit "//" ++ (body ++ q2 :: post)) := rfl
        rw [h58] at hub ⊢
        simp only []
        exact hub
      · subst h0
        have h5 : lit "https" ++ (lit "://" ++ (body ++ q2 :: post)) =
            lit "http" ++ 115 :: (lit "://" ++ (body ++ q2 :: post)) := rfl
        rw [h5, dropLit?_append]
        simp only [hub]
    unfold urlMatchAt
    simp only []
    rcases hattr with h0 | h0
    · subst h0
      rw [hs, dropLit?_append]
      exact hrest
    · subst h0
      rw [hs]
      have hn : dropLit? (lit "href") (lit "data-src" ++
          61 :: q1 :: (sch ++ (lit "://" ++ (body ++ q2 :: post)))) = none := by
        simp [dropLit?, lit]
      rw [hn, dropLit?_append]
      exact hrest

theorem urlOccurrence_iff (html pre v : JSString) :
    UrlOccurrence html pre v ↔ ∃ suf, html = pre ++ suf ∧ urlMatchAt suf = some v := by
  constructor
  · rintro ⟨attr, q1, sch, body, q2, post, hs, hrest⟩
    exact ⟨_, hs, (urlMatchAt_eq_some _ v).mpr
      ⟨attr, q1, sch, body, q2, post, by rw [List.nil_append], hrest⟩⟩
  · rintro ⟨suf, hs, hm⟩
    obtain ⟨attr, q1, sch, body, q2, post, hs2, hrest⟩ := (urlMatchAt_eq_some suf v).mp hm
    rw [List.nil_append] at hs2
    exact ⟨attr, q1, sch, body, q2, post, by rw [hs, hs2], hrest⟩

/-- The search for the media URL fails exactly when the markup holds no occurrence. -/
theorem urlMatch_eq_none_iff (html : JSString) :
    urlMatch html = none ↔ ¬ ∃ pre v, UrlOccurrence html pre v := by
  constructor
  · rintro h ⟨pre, v, hocc⟩
    obtain ⟨suf, hs, hm⟩ := (urlOccurrence_iff html pre v).mp hocc
    rw [firstMatch_none_all urlMatchAt html h pre suf hs] at hm
    cases hm
  · intro h
    apply firstMatch_eq_none
    intro a b hab
    cases hm : urlMatchAt b with
    | none => rfl
    | some v => exact absurd ⟨a, v, (urlOccurrence_iff html a v).mpr ⟨b, hab, hm⟩⟩ h

/-- What lines 63-69 achieve: when the markup holds an occurrence (the markers in the
order of the expression), the skip path is not taken, the match is the first occurrence
in the markup, and the URL of the download request is `decodeURIComponent` of its value
when the decoding does not throw. -/
theorem urlMatch_first_occurrence (html : JSString) (hex : ∃ pre v, UrlOccurrence html pre v) :
    ∃ pre v, UrlOccurrence html pre v ∧
      (∀ pre1 v1, UrlOccurrence html pre1 v1 → pre.length ≤ pre1.length) ∧
      urlMatch html = some v ∧
      ∀ (w : World) (i : Nat) (link : JSString),
        w.lookup i link = LookupOutcome.data (some html) →
          Event.logNoUrl i ∉ linkTrace w i link ∧
          ∀ url, w.decodeURIComponent v = some url →
            Event.download i url ∈ linkTrace w i link := by
  obtain ⟨pre0, v0, h0⟩ := hex
  obtain ⟨suf0, hs0, hm0⟩ := (urlOccurrence_iff html pre0 v0).mp h0
  have hsome : (urlMatch html).isSome = true :=
    firstMatch_some_exists urlMatchAt html ⟨pre0, suf0, hs0, by rw [hm0]; rfl⟩
  cases hm : urlMatch html with
  | none => rw [hm] at hsome; simp at hsome
  | some v =>
    obtain ⟨pre, suf, hl, hsuf, hpre⟩ := firstMatch_some_decomp urlMatchAt html v hm
    refine ⟨pre, v, (urlOccurrence_iff html pre v).mpr ⟨suf, hl, hsuf⟩, ?_, rfl, ?_⟩
    · intro pre1 v1 h1
      obtain ⟨suf1, hs1, hm1⟩ := (urlOccurrence_iff html pre1 v1).mp h1
      by_contra hlt
      have hlt2 : pre1.length < pre.length := Nat.lt_of_not_le hlt
      have heq : pre ++ suf = pre1 ++ suf1 := by rw [← hl, hs1]
      rcases List.append_eq_append_iff.mp heq with ⟨a1, h2, -⟩ | ⟨c1, h2, h3⟩
      · rw [h2] at hlt2
        simp at hlt2
      · have hc1 : c1 ≠ [] := by
          intro hc
          rw [hc] at h2
          simp at h2
          rw [h2] at hlt2
          omega
        have hnone := hpre pre1 c1 h2 hc1
        rw [← h3, hm1] at hnone
        cases hnone
    · intro w i link hlook
      constructor
      · unfold linkTrace processLink
        simp only [hlook, hm]
        repeat' split
        all_goals simp [State.emit]
      · intro url hdec
        unfold linkTrace processLink
        simp only [hlook, hm, hdec]
        repeat' split
        all_goals simp [State.emit]

/-! ## Facts about the tag removal -/

theorem tagRest_none (cs : JSString) (hlt : ∀ x ∈ cs, isLineTerminator x = false)
    (h : tagRest cs = none) : 62 ∉ cs := by
  induction cs with
  | nil => simp
  | cons c cs ih =>
    unfold tagRest at h
    by_cases hc : c = 62
    · simp [hc] at h
    · have hl : isLineTerminator c = false := hlt c (List.mem_cons_self _ _)
      simp only [hc, if_false, hl, Bool.false_eq_true] at h
      cases ht : tagRest cs with
      | some n => rw [ht] at h; simp at h
      | none =>
        intro hm
        rcases List.mem_cons.mp hm with h1 | h1
        · exact hc h1.symm
        · exact ih (fun x hx => hlt x (List.mem_cons_of_mem _ hx)) ht h1

theorem mem_stripTagsAux (k : Nat) (s : JSString) (x : Nat) (h : x ∈ stripTagsAux k s) :
    x ∈ s := by
  induction s generalizing k with
  | nil => simp [stripTagsAux] at h
  | cons c cs ih =>
    cases k with
    | succ k =>
      simp only [stripTagsAux] at h
      exact List.mem_cons_of_mem _ (ih k h)
    | zero =>
      simp only [stripTagsAux] at h
      by_cases hc : c = 60
      · simp only [hc, if_true] at h
        cases ht : tagRest cs with
        | some n =>
          rw [ht] at h
          exact List.mem_cons_of_mem _ (ih n h)
        | none =>
          rw [ht] at h
          rcases List.mem_cons.mp h with h1 | h1
          · rw [h1, hc]
            exact List.mem_cons_self _ _
          · exact List.mem_cons_of_mem _ (ih 0 h1)
      · simp only [hc, if_false] at h
        rcases List.mem_cons.mp h with h1 | h1
        · rw [h1]
          exact List.mem_cons_self _ _
        · exact List.mem_cons_of_mem _ (ih 0 h1)

/-- Without a line terminator in the text, the tag removal leaves no `<` that is followed
later by a `>`. -/
theorem stripTagsAux_no_tag (s : JSString) (hlt : ∀ x ∈ s, isLineTerminator x = false) :
    ∀ (k : Nat) (a b : JSString), stripTagsAux k s = a ++ 60 :: b → 62 ∉ b := by
  induction s with
  | nil =>
    intro k a b h
    simp [stripTagsAux] at h
  | cons c cs ih =>
    have ih1 := ih (fun x hx => hlt x (List.mem_cons_of_mem _ hx))
    intro k a b h
    cases k with
    | succ k =>
      simp only [stripTagsAux] at h
      exact ih1 k a b h
    | zero =>
      simp only [stripTagsAux] at h
      by_cases hc : c = 60
      · simp only [hc, if_true] at h
        cases ht : tagRest cs with
        | some n =>
          rw [ht] at h
          exact ih1 n a b h
        | none =>
          rw [ht] at h
          simp only [] at h
          rcases List.cons_eq_append_iff.mp h with ⟨-, h1⟩ | ⟨a1, -, h1⟩
          · simp only [List.cons.injEq, true_and] at h1
            intro hm
            rw [h1] at hm
            exact tagRest_none cs (fun x hx => hlt x (List.mem_cons_of_mem _ hx)) ht
              (mem_stripTagsAux 0 cs 62 hm)
          · exact ih1 0 a1 b h1
      · simp only [hc, if_false] at h
        rcases List.cons_eq_append_iff.mp h with ⟨-, h1⟩ | ⟨a1, -, h1⟩
        · simp only [List.cons.injEq] at h1
          exact absurd h1.1.symm hc
        · exact ih1 0 a1 b h1

/-- A code unit other than `r` in the result of `replaceWsRuns` stands in the text, and
what follows it in the result, other than `r`, follows it in the text. -/
theorem replaceWsRuns_split (r x : Nat) (hx : x ≠ r) (s : JSString) :
    ∀ (f : Bool) (a b : JSString), replaceWsRuns r f s = a ++ x :: b →
      ∃ a1 b1, s = a1 ++ x :: b1 ∧ ∀ y ∈ b, y ≠ r → y ∈ b1 := by
  induction s with
  | nil =>
    intro f a b h
    simp [replaceWsRuns] at h
  | cons c cs ih =>
    intro f a b h
    have lift : ∀ (f1 : Bool) (a2 : JSString), replaceWsRuns r f1 cs = a2 ++ x :: b →
        ∃ a1 b1, c :: cs = a1 ++ x :: b1 ∧ ∀ y ∈ b, y ≠ r → y ∈ b1 := by
      intro f1 a2 h2
      obtain ⟨a1, b1, h3, h4⟩ := ih f1 a2 b h2
      exact ⟨c :: a1, b1, by rw [h3]; rfl, h4⟩
    unfold replaceWsRuns at h
    by_cases hc : isWhiteSpace c = true
    · simp only [hc, if_true] at h
      cases f with
      | true =>
        simp only [if_true] at h
        exact lift true a h
      | false =>
        simp only [Bool.false_eq_true, if_false] at h
        rcases List.cons_eq_append_iff.mp h with ⟨-, h1⟩ | ⟨a1, -, h1⟩
        · simp only [List.cons.injEq] at h1
          exact absurd h1.1 hx
        · exact lift true a1 h1
    · have hc2 : isWhiteSpace c = false := by simpa using hc
      simp only [hc2, Bool.false_eq_true, if_false] at h
      rcases List.cons_eq_append_iff.mp h with ⟨-, h1⟩ | ⟨a1, -, h1⟩
      · simp only [List.cons.injEq] at h1
        refine ⟨[], cs, by rw [h1.1]; rfl, ?_⟩
        intro y hy hyr
        rw [h1.2] at hy
        rcases mem_replaceWsRuns r false cs y hy with h5 | h5
        · exact absurd h5 hyr
        · exact h5.1
      · exact lift false a1 h1

/-- What line 74 achieves: the cleaned caption neither starts nor ends with white space,
and when the raw caption holds no line terminator, the cleaned caption holds no `<` that
is followed later by a `>`. -/
theorem cleanCaption_no_tag (raw : JSString) :
    (∀ c, (cleanCaption raw).head? = some c → isWhiteSpace c = false) ∧
    (∀ c, (cleanCaption raw).getLast? = some c → isWhiteSpace c = false) ∧
    ((∀ x ∈ raw, isLineTerminator x = false) →
      ∀ a b, cleanCaption raw = a ++ 60 :: b → 62 ∉ b) := by
  refine ⟨trim_head_not_ws _, trim_last_not_ws _, ?_⟩
  intro hlt a b h hm
  unfold cleanCaption at h
  obtain ⟨a0, b0, hdec, -, -⟩ := trim_decomp (replaceWsRuns 32 false (stripTags raw))
  rw [h] at hdec
  have h1 : replaceWsRuns 32 false (stripTags raw) = (a0 ++ a) ++ 60 :: (b ++ b0) := by
    rw [hdec]
    simp
  obtain ⟨a1, b1, h2, h3⟩ := replaceWsRuns_split 32 60 (by decide) _ false _ _ h1
  have h4 : (62 : Nat) ∈ b1 := h3 62 (List.mem_append_left _ hm) (by decide)
  exact stripTagsAux_no_tag raw hlt 0 a1 b1 h2 h4

/-! ## The claims -/

/-- C1: for every author handle and caption the stem `safeName` of the file name has at
most 150 code units, the file name (stem plus `.mp4`) at most 154, and every code unit of
the stem is an ASCII letter, a digit, an underscore or a hyphen; so none is white space,
a slash, a backslash or a dot. -/
theorem C1_filename_bound_and_charset (handle caption : JSString) :
    fileName handle caption = safeName (fullTitle handle caption) ++ lit ".mp4" ∧
    (safeName (fullTitle handle caption)).length ≤ 150 ∧
    (fileName handle caption).length ≤ 154 ∧
    ∀ c ∈ safeName (fullTitle handle caption),
      ((97 ≤ c ∧ c ≤ 122) ∨ (65 ≤ c ∧ c ≤ 90) ∨ (48 ≤ c ∧ c ≤ 57) ∨ c = 95 ∨ c = 45) ∧
      isWhiteSpace c = false ∧ c ≠ 47 ∧ c ≠ 92 ∧ c ≠ 46 := by
  refine ⟨rfl, length_safeName _, ?_, ?_⟩
  · have h := length_safeName (fullTitle handle caption)
    have h4 : (lit ".mp4").length = 4 := by decide
    simp only [fileName, List.length_append, h4]
    omega
  · intro c hc
    rcases mem_safeName _ c hc with h | ⟨hk, hw⟩
    · subst h
      decide
    · simp only [isKept, Bool.or_eq_true, Bool.and_eq_true, decide_eq_true_eq,
        beq_iff_eq] at hk
      have hw2 := hw
      simp only [isWhiteSpace, Bool.or_eq_false_iff, Bool.and_eq_false_iff,
        decide_eq_false_iff_not, beq_eq_false_iff_ne] at hw
      refine ⟨?_, hw2, ?_, ?_, ?_⟩ <;> omega

/-- C2: when the link source is readable and yields a link, the links are the pieces of
the text between the commas (joining the pieces with commas gives the text back, no piece
holds a comma), trimmed (white space removed at both ends only), the empty ones dropped;
the lookup requests of the run are exactly these links, one per link and in order, so
their number is the number of links; no link is empty, starts or ends with white space,
or holds a comma. -/
theorem C2_links_and_lookups (w : World) (content : JSString)
    (hread : w.linksFile = some content) (hne : parseLinks content ≠ []) :
    (List.intercalate [44] (split 44 content) = content ∧
      (∀ p ∈ split 44 content, 44 ∉ p) ∧
      (∀ p ∈ split 44 content, ∃ a b, p = a ++ trim p ++ b ∧
        (∀ c ∈ a, isWhiteSpace c = true) ∧ (∀ c ∈ b, isWhiteSpace c = true)) ∧
      parseLinks content =
        ((split 44 content).map trim).filter (fun l => decide (l ≠ []))) ∧
    lookupsOf (downloadTiktoks w).trace = (parseLinks content).enum ∧
    (lookupsOf (downloadTiktoks w).trace).length = (parseLinks content).length ∧
    ∀ l ∈ parseLinks content, l ≠ [] ∧
      (∀ c, l.head? = some c → isWhiteSpace c = false) ∧
      (∀ c, l.getLast? = some c → isWhiteSpace c = false) ∧ 44 ∉ l := by
  have htr : lookupsOf (downloadTiktoks w).trace = (parseLinks content).enum := by
    rw [downloadTiktoks_trace w content hread hne, lookupsOf_append, lookupsOf_flatMap,
      List.enum_eq_enumFrom]
    cases w.clearOk <;> simp [lookupsOf]
  refine ⟨⟨intercalate_split 44 content, not_mem_of_mem_split 44 content,
    fun p _ => trim_decomp p, ?_⟩, htr, ?_, ?_⟩
  · unfold parseLinks
    apply List.filter_congr
    intro l _
    cases l <;> simp
  · rw [htr, List.enum_length]
  · intro l hl
    unfold parseLinks at hl
    obtain ⟨hm, hnonempty⟩ := List.mem_filter.mp hl
    obtain ⟨p, hp, hpl⟩ := List.mem_map.mp hm
    subst hpl
    refine ⟨?_, trim_head_not_ws p, trim_last_not_ws p, ?_⟩
    · intro h0
      rw [h0] at hnonempty
      simp at hnonempty
    · intro hc
      exact not_mem_of_mem_split 44 content p hp (mem_of_mem_trim p 44 hc)

/-- C2 at the example world: the two lookup requests are the two trimmed links. -/
theorem C2_links_and_lookups_witness :
    lookupsOf (downloadTiktoks exampleWorld).trace =
      [(0, lit "https://tiktok.com/@alice/video/1"),
        (1, lit "https://tiktok.com/@bob/video/2")] :=
  (C2_links_and_lookups exampleWorld
    (lit "https://tiktok.com/@alice/video/1, https://tiktok.com/@bob/video/2")
    rfl (by decide)).2.1.trans (by decide)

/-- C3: when the link source is readable and yields a link, then whatever the outcome of
each link, the loop runs through all links, the link source is overwritten after it, and
if that overwrite succeeds the final content of the link source is empty. -/
theorem C3_source_emptied (w : World) (content : JSString)
    (hread : w.linksFile = some content) (hne : parseLinks content ≠ [])
    (hclear : w.clearOk = true) :
    (downloadTiktoks w).linksFile = some [] ∧
    ∃ loopEvents, (downloadTiktoks w).trace =
        loopEvents ++ [Event.clearLinks, Event.logCleared] ∧
      lookupsOf loopEvents = (parseLinks content).enum ∧
      Event.clearLinks ∉ loopEvents := by
  refine ⟨?_, ((parseLinks content).enumFrom 0).flatMap (fun p => linkTrace w p.1 p.2),
    ?_, ?_, ?_⟩
  · unfold downloadTiktoks
    simp only [hread]
    have h : (parseLinks content).isEmpty = false := by
      cases hp : parseLinks content with
      | nil => exact absurd hp hne
      | cons a b => rfl
    simp [h, hclear, State.emit]
  · rw [downloadTiktoks_trace w content hread hne, hclear]
    simp
  · rw [lookupsOf_flatMap, List.enum_eq_enumFrom]
  · intro hmem
    obtain ⟨p, -, hp⟩ := List.mem_flatMap.mp hmem
    have := linkTrace_index w p.1 p.2 _ hp
    simp [Event.linkIndex] at this

/-- C3 at the example world, where no link yields a file: the link source ends empty. -/
theorem C3_source_emptied_witness :
    (downloadTiktoks exampleWorld).linksFile = some [] :=
  (C3_source_emptied exampleWorld
    (lit "https://tiktok.com/@alice/video/1, https://tiktok.com/@bob/video/2")
    rfl (by decide) rfl).1

/-- C4: when the markup returned for the link at position `i` holds no marker-bearing
URL (no `href=` or `data-src=` with a quoted http(s) URL that holds `tiktokcdn` and
behind it `video_mp4`), the run logs the skip, issues no download request and writes no
file for that link, and the lookup of every link of the batch, those behind `i`
included, is still issued, whatever the outcomes of the other links. -/
theorem C4_skip_and_continue (w : World) (content : JSString) (i : Nat)
    (link html : JSString)
    (hread : w.linksFile = some content)
    (hi : (parseLinks content)[i]? = some link)
    (hlook : w.lookup i link = LookupOutcome.data (some html))
    (hnourl : ¬ ∃ pre v, UrlOccurrence html pre v) :
    Event.logNoUrl i ∈ (downloadTiktoks w).trace ∧
    (∀ url, Event.download i url ∉ (downloadTiktoks w).trace) ∧
    (∀ name, Event.writeVideo i name ∉ (downloadTiktoks w).trace) ∧
    (∀ j l, (parseLinks content)[j]? = some l →
      Event.lookup j l ∈ (downloadTiktoks w).trace) ∧
    Event.clearLinks ∈ (downloadTiktoks w).trace := by
  have hno : urlMatch html = none := (urlMatch_eq_none_iff html).mpr hnourl
  have hne : parseLinks content ≠ [] := by
    intro h0
    rw [h0] at hi
    simp at hi
  have hlt : linkTrace w i link = [Event.lookup i link, Event.logNoUrl i] := by
    unfold linkTrace processLink
    simp [hlook, hno, State.emit]
  have hmemi : (i, link) ∈ (parseLinks content).enumFrom 0 := by
    rw [← List.enum_eq_enumFrom]
    exact List.mk_mem_enum_iff_getElem?.mpr hi
  have honly : ∀ e ∈ (downloadTiktoks w).trace, e.linkIndex = some i →
      e = Event.lookup i link ∨ e = Event.logNoUrl i := by
    intro e he hidx
    rw [downloadTiktoks_trace w content hread hne] at he
    rcases List.mem_append.mp he with h | h
    · obtain ⟨p, hp, hep⟩ := List.mem_flatMap.mp h
      have h1 := linkTrace_index w p.1 p.2 e hep
      rw [hidx] at h1
      have h2 : p.1 = i := (Option.some.inj h1).symm
      have h3 : (p.1, p.2) ∈ (parseLinks content).enum := by
        rw [List.enum_eq_enumFrom]
        exact hp
      have h4 := List.mk_mem_enum_iff_getElem?.mp h3
      rw [h2, hi] at h4
      have h5 : p.2 = link := (Option.some.inj h4).symm
      rw [h2, h5, hlt] at hep
      simpa using hep
    · cases hc : w.clearOk <;> simp [hc] at h <;> rcases h with h | h <;>
        simp [h, Event.linkIndex] at hidx
  refine ⟨?_, ?_, ?_, ?_, ?_⟩
  · rw [downloadTiktoks_trace w content hread hne]
    apply List.mem_append_left
    exact List.mem_flatMap.mpr ⟨(i, link), hmemi, by simp [hlt]⟩
  · intro url hmem
    rcases honly _ hmem rfl with h | h <;> simp at h
  · intro name hmem
    rcases honly _ hmem rfl with h | h <;> simp at h
  · intro j l hj
    rw [downloadTiktoks_trace w content hread hne]
    apply List.mem_append_left
    refine List.mem_flatMap.mpr ⟨(j, l), ?_, ?_⟩
    · rw [← List.enum_eq_enumFrom]
      exact List.mk_mem_enum_iff_getElem?.mpr hj
    · unfold linkTrace processLink
      simp only []
      repeat' split
      all_goals simp [State.emit]
  · rw [downloadTiktoks_trace w content hread hne]
    simp

/-- C4 at the example world: the first link is skipped, the second is still looked up. -/
theorem C4_skip_and_continue_witness :
    Event.logNoUrl 0 ∈ (downloadTiktoks exampleWorld).trace ∧
    Event.lookup 1 (lit "https://tiktok.com/@bob/video/2") ∈
      (downloadTiktoks exampleWorld).trace :=
  have h := C4_skip_and_continue exampleWorld
    (lit "https://tiktok.com/@alice/video/1, https://tiktok.com/@bob/video/2") 0
    (lit "https://tiktok.com/@alice/video/1") (lit "<p>no media</p>")
    rfl (by decide) rfl ((urlMatch_eq_none_iff (lit "<p>no media</p>")).mp (by decide))
  ⟨h.1, h.2.2.2.1 1 _ (by decide)⟩

/-- C7: a link without a path segment that begins with `@` (no `/@` followed by a code
unit other than `/`; so in particular a link without any `@`) gets the placeholder handle
`unknown_user`, and for every caption the file name starts with `CC_unknown_user`. -/
theorem C7_placeholder_handle (link : JSString)
    (hseg : ∀ pre c rest, link = pre ++ 47 :: 64 :: c :: rest → c = 47) :
    username link = lit "unknown_user" ∧
    ∀ caption, ∃ rest,
      fileName (username link) caption = lit "CC_unknown_user" ++ rest := by
  have hnone : userMatch link = none := by
    apply firstMatch_eq_none
    intro a b hab
    cases hm : userMatchAt b with
    | none => rfl
    | some g =>
      exfalso
      obtain ⟨post, hb, hne, h47, -⟩ := (userMatchAt_eq_some b g).mp hm
      cases g with
      | nil => exact hne rfl
      | cons c g1 =>
        have hk : lit "tiktok.com/@" = lit "tiktok.com" ++ [47, 64] := by decide
        have hl : link = (a ++ lit "tiktok.com") ++ 47 :: 64 :: c :: (g1 ++ post) := by
          rw [hab, hb, hk]
          simp
        have := hseg _ c _ hl
        exact h47 (this ▸ List.mem_cons_self _ _)
  have hu : username link = lit "unknown_user" := by
    unfold username
    rw [hnone]
  refine ⟨hu, ?_⟩
  intro caption
  have h1 : (lit "unknown_user").filter isKept = lit "unknown_user" := by decide
  have h2 : replaceWsRuns 95 true (lit "unknown_user") = lit "unknown_user" := by decide
  refine ⟨(95 :: replaceWsRuns 95 true (caption.filter isKept)).take 135 ++ lit ".mp4", ?_⟩
  rw [hu, fileName, safeName_fullTitle, h1, replaceWsRuns_append, h2, ← List.append_assoc,
    List.take_append_eq_append_take]
  have h3 : (lit "CC_" ++ lit "unknown_user").take 150 = lit "CC_unknown_user" := by decide
  have h4 : 150 - (lit "CC_" ++ lit "unknown_user").length = 135 := by decide
  have h5 : flagAfter true (lit "unknown_user") = false := by decide
  rw [h3, h4, h5, List.append_assoc]
  simp [replaceWsRuns, isWhiteSpace]

/-- C7 at a short link without any `@`. -/
theorem C7_placeholder_handle_witness :
    username (lit "https://vm.example.com/ZM8abc/") = lit "unknown_user" :=
  (C7_placeholder_handle (lit "https://vm.example.com/ZM8abc/") (by
    intro pre c rest h
    have h64 : 64 ∈ lit "https://vm.example.com/ZM8abc/" := by
      rw [h]
      simp
    exact absurd h64 (by decide))).1

/-- C9, as stated, fails: a link on another host has a path segment `@alice`, but the
handle is the placeholder. -/
theorem C9_counterexample :
    username (lit "https://example.com/@alice/video/1") = lit "unknown_user" ∧
    username (lit "https://example.com/@alice/video/1") ≠ lit "alice" := by
  decide

/-- C9, amended: when the link holds `tiktok.com/@` followed by a code unit other than
`/`, the handle is the text behind the first such occurrence up to the next `/` or the
end of the link; when the link holds no such occurrence, the handle is the placeholder. -/
theorem C9_handle_extraction (link : JSString) :
    ((∃ pre c rest, link = pre ++ lit "tiktok.com/@" ++ c :: rest ∧ c ≠ 47) →
      ∃ pre h post, link = pre ++ lit "tiktok.com/@" ++ h ++ post ∧
        h ≠ [] ∧ 47 ∉ h ∧ (post = [] ∨ post.head? = some 47) ∧
        (∀ pre1 c rest, link = pre1 ++ lit "tiktok.com/@" ++ c :: rest → c ≠ 47 →
          pre.length ≤ pre1.length) ∧
        username link = h) ∧
    ((¬ ∃ pre c rest, link = pre ++ lit "tiktok.com/@" ++ c :: rest ∧ c ≠ 47) →
      username link = lit "unknown_user") := by
  constructor
  · rintro ⟨pre0, c0, rest0, hl0, hc0⟩
    have hsome : (userMatch link).isSome = true := by
      apply firstMatch_some_exists
      obtain ⟨g, hg⟩ := userMatchAt_isSome c0 rest0 hc0
      exact ⟨pre0, lit "tiktok.com/@" ++ c0 :: rest0, by rw [hl0, List.append_assoc],
        by rw [hg]; rfl⟩
    cases hm : userMatch link with
    | none => rw [hm] at hsome; simp at hsome
    | some g =>
      obtain ⟨pre, suf, hl, hsuf, hpre⟩ := firstMatch_some_decomp userMatchAt link g hm
      obtain ⟨post, hs, hne, h47, hpost⟩ := (userMatchAt_eq_some suf g).mp hsuf
      refine ⟨pre, g, post, ?_, hne, h47, hpost, ?_, ?_⟩
      · rw [hl, hs]
        simp
      · intro pre1 c rest hl1 hc
        by_contra hlt
        have hlt2 : pre1.length < pre.length := Nat.lt_of_not_le hlt
        have heq : pre ++ suf = pre1 ++ (lit "tiktok.com/@" ++ c :: rest) := by
          rw [← hl, hl1, List.append_assoc]
        rcases List.append_eq_append_iff.mp heq with ⟨a1, h1, -⟩ | ⟨c1, h1, h2⟩
        · rw [h1] at hlt2
          simp at hlt2
        · have hc1 : c1 ≠ [] := by
            intro h0
            rw [h0] at h1
            simp at h1
            rw [h1] at hlt2
            omega
          have hnone := hpre pre1 c1 h1 hc1
          rw [← h2] at hnone
          obtain ⟨g1, hg1⟩ := userMatchAt_isSome c rest hc
          rw [hg1] at hnone
          cases hnone
      · unfold username
        rw [hm]
  · intro hno
    have hnone : userMatch link = none := by
      apply firstMatch_eq_none
      intro a b hab
      cases hm : userMatchAt b with
      | none => rfl
      | some g =>
        exfalso
        obtain ⟨post, hb, hne, h47, -⟩ := (userMatchAt_eq_some b g).mp hm
        cases g with
        | nil => exact hne rfl
        | cons c g1 =>
          apply hno
          refine ⟨a, c, g1 ++ post, ?_, ?_⟩
          · rw [hab, hb]
            simp
          · intro h0
            exact h47 (h0 ▸ List.mem_cons_self _ _)
    unfold username
    rw [hnone]

/-- C9, amended, at a link on `www.tiktok.com`. -/
theorem C9_handle_extraction_witness :
    ∃ pre h post, lit "https://www.tiktok.com/@alice/video/1" =
        pre ++ lit "tiktok.com/@" ++ h ++ post ∧
      h ≠ [] ∧ 47 ∉ h ∧ (post = [] ∨ post.head? = some 47) ∧
      (∀ pre1 c rest, lit "https://www.tiktok.com/@alice/video/1" =
          pre1 ++ lit "tiktok.com/@" ++ c :: rest → c ≠ 47 → pre.length ≤ pre1.length) ∧
      username (lit "https://www.tiktok.com/@alice/video/1") = h :=
  (C9_handle_extraction (lit "https://www.tiktok.com/@alice/video/1")).1
    ⟨lit "https://www.", 97, lit "lice/video/1", by decide, by decide⟩

/-- C5, as stated, fails: `World !` is a caption the resolver produces, and with the
handle `bob` the file name ends with an underscore the claimed name does not have. -/
theorem C5_counterexample :
    captionOf (lit "<h3>World !</h3>") = lit "World !" ∧
    fileName (username (lit "https://tiktok.com/@bob/video/2")) (lit "World !") =
      lit "CC_bob_World_.mp4" ∧
    (lit "CC_" ++ lit "bob" ++ [95] ++
      List.intercalate [95] (wordsOf ((lit "World !").filter isKept))).take 150 ++ lit ".mp4" =
      lit "CC_bob_World.mp4" := by
  decide

/-- C5, amended: for a link `https://tiktok.com/@` + `h` + `/...` with a non-empty handle
`h` of ASCII letters, digits, underscores and hyphens, and every caption `c`, the file
name is the first 150 code units of `CC_` + `h` + `_` + `J` + `T`, followed by `.mp4`;
`J` is the underscore-join of the non-empty words of `c` after the removal of every code
unit other than ASCII letters, digits, underscore, hyphen and space, and `T` is one more
underscore when that text has a word and ends with a space, and empty otherwise. -/
theorem C5_filename_composition (h c rest : JSString) (hne : h ≠ [])
    (hh : ∀ x ∈ h, (97 ≤ x ∧ x ≤ 122) ∨ (65 ≤ x ∧ x ≤ 90) ∨ (48 ≤ x ∧ x ≤ 57) ∨
      x = 95 ∨ x = 45) :
    fileName (username (lit "https://tiktok.com/@" ++ h ++ 47 :: rest)) c =
      (lit "CC_" ++ h ++ [95] ++
        List.intercalate [95] (wordsOf (c.filter isKept)) ++
        (if wordsOf (c.filter isKept) ≠ [] ∧ (c.filter isKept).getLast? = some 32
          then [95] else [])).take 150 ++ lit ".mp4" := by
  have h47 : 47 ∉ h := by
    intro hm
    have := hh 47 hm
    omega
  have hkept : h.filter isKept = h := by
    rw [List.filter_eq_self]
    intro x hx
    have := hh x hx
    simp only [isKept, Bool.or_eq_true, Bool.and_eq_true, decide_eq_true_eq, beq_iff_eq]
    omega
  have hnows : ∀ x ∈ h, isWhiteSpace x = false := by
    intro x hx
    have := hh x hx
    simp only [isWhiteSpace, Bool.or_eq_false_iff, Bool.and_eq_false_iff,
      decide_eq_false_iff_not, beq_eq_false_iff_ne]
    omega
  have hfc : ∀ x ∈ c.filter isKept, isWhiteSpace x = true → x = 32 := by
    intro x hx hw
    have hk := (List.mem_filter.mp hx).2
    simp only [isKept, Bool.or_eq_true, Bool.and_eq_true, decide_eq_true_eq,
      beq_iff_eq] at hk
    simp only [isWhiteSpace, Bool.or_eq_true, Bool.and_eq_true, decide_eq_true_eq,
      beq_iff_eq] at hw
    omega
  have hsp : isWhiteSpace 32 = true := by decide
  rw [username_tiktok_link h rest hne h47, fileName, safeName_fullTitle, hkept,
    replaceWsRuns_append, replaceWsRuns_no_ws 95 true h hnows,
    flagAfter_no_ws true h hne hnows]
  have h1 : replaceWsRuns 95 false (32 :: c.filter isKept) =
      95 :: replaceWsRuns 95 true (c.filter isKept) := by
    simp [replaceWsRuns, hsp]
  rw [h1, replaceWsRuns_words _ hfc]
  simp [List.append_assoc]

/-- C5, amended, at the two links and captions of the scenario. -/
theorem C5_filename_composition_witness :
    fileName (username (lit "https://tiktok.com/@" ++ lit "alice" ++ 47 :: lit "video/1"))
        (lit "Hello #fun") = lit "CC_alice_Hello_fun.mp4" ∧
    fileName (username (lit "https://tiktok.com/@" ++ lit "bob" ++ 47 :: lit "video/2"))
        (lit "World!!") = lit "CC_bob_World.mp4" :=
  ⟨(C5_filename_composition (lit "alice") (lit "Hello #fun") (lit "video/1")
      (by decide) (by decide)).trans (by decide),
    (C5_filename_composition (lit "bob") (lit "World!!") (lit "video/2")
      (by decide) (by decide)).trans (by decide)⟩

/-- C6, as stated, fails: with a handle of 140 letters the markup has a media URL and no
`<h3>`, and the cut at 150 removes the placeholder caption from the file name. -/
theorem C6_counterexample :
    urlMatch (lit "<a href=\"https://v.tiktokcdn.com/video_mp4/1\">get</a>") ≠ none ∧
    captionMatch (lit "<a href=\"https://v.tiktokcdn.com/video_mp4/1\">get</a>") = none ∧
    ¬ ∃ a b, fileName (username (lit "https://tiktok.com/@" ++ List.replicate 140 97))
        (captionOf (lit "<a href=\"https://v.tiktokcdn.com/video_mp4/1\">get</a>")) =
      a ++ lit "tiktok_video" ++ b := by
  refine ⟨by decide, by decide, ?_⟩
  apply afterFirst_none
  decide!

/-- C6, amended: when the markup has no `<h3>` followed by `</h3>`, the caption is the
placeholder `tiktok_video`, and when at most 134 code units of the handle are kept by the
sanitisation (so in particular when the handle has at most 134 code units), the file name
ends with `tiktok_video.mp4`. -/
theorem C6_placeholder_caption (link html : JSString)
    (hno : ¬ ∃ a g b, html = a ++ lit "<h3>" ++ g ++ lit "</h3>" ++ b)
    (hlen : ((username link).filter isKept).length ≤ 134) :
    captionOf html = lit "tiktok_video" ∧
    ∃ pre, fileName (username link) (captionOf html) =
      pre ++ lit "tiktok_video" ++ lit ".mp4" := by
  have hcap : captionOf html = lit "tiktok_video" := by
    unfold captionOf
    rw [captionMatch_none html hno]
    decide
  refine ⟨hcap, ?_⟩
  have h1 : (lit "tiktok_video").filter isKept = lit "tiktok_video" := by decide
  have h2 : ∀ b : Bool, replaceWsRuns 95 b (32 :: lit "tiktok_video") =
      (if b then [] else [95]) ++ lit "tiktok_video" := by
    intro b
    cases b <;> decide
  have h3 : (lit "CC_").length = 3 := by decide
  have h4 : (lit "tiktok_video").length = 12 := by decide
  refine ⟨lit "CC_" ++ replaceWsRuns 95 true ((username link).filter isKept) ++
    (if flagAfter true ((username link).filter isKept) then [] else [95]), ?_⟩
  rw [hcap, fileName, safeName_fullTitle, h1, replaceWsRuns_append, h2,
    List.take_of_length_le]
  · simp [List.append_assoc]
  · have h5 := length_replaceWsRuns_le 95 true ((username link).filter isKept)
    simp only [List.length_append, h3, h4]
    split <;> simp <;> omega

/-- C6, amended, at a short handle and a markup without `<h3>`. -/
theorem C6_placeholder_caption_witness :
    ∃ pre, fileName (username (lit "https://tiktok.com/@alice/video/1"))
        (captionOf (lit "<a href=\"https://v.tiktokcdn.com/video_mp4/1\">get</a>")) =
      pre ++ lit "tiktok_video" ++ lit ".mp4" :=
  (C6_placeholder_caption (lit "https://tiktok.com/@alice/video/1")
    (lit "<a href=\"https://v.tiktokcdn.com/video_mp4/1\">get</a>")
    (fun hex =>
      afterFirst_none (lit "<h3>")
        (lit "<a href=\"https://v.tiktokcdn.com/video_mp4/1\">get</a>") (by decide)
        (by
          obtain ⟨a, g, b, hb⟩ := hex
          exact ⟨a, g ++ lit "</h3>" ++ b, by rw [hb]; simp⟩))
    (by decide)).2

/-- C8, the code at the failing input: the quoted value of the `href` is an https URL
that holds both markers, `video_mp4` before `tiktokcdn`; the expression of line 63 wants
them in the other order, finds no match, and the run logs "No TikTok CDN URL found" and
skips the link, although line 62 announces "any URL containing" the two markers.  The
same expression cuts a value that holds the markers in order at an apostrophe inside it,
so the URL of the download request is not the value of the attribute. -/
theorem C8_reversed_markers_skipped :
    (∃ a b c, lit "https://cdn.example/video_mp4/tiktokcdn/1.mp4" =
      a ++ lit "video_mp4" ++ b ++ lit "tiktokcdn" ++ c) ∧
    urlMatch (lit "<a href=\"https://cdn.example/video_mp4/tiktokcdn/1.mp4\">get</a>") = none ∧
    (downloadTiktoks reversedMarkersWorld).trace =
      [Event.lookup 0 (lit "https://tiktok.com/@alice/video/1"), Event.logNoUrl 0,
        Event.clearLinks, Event.logCleared] ∧
    (downloadTiktoks reversedMarkersWorld).videos = [] ∧
    urlMatch (lit "<a href=\"https://v.tiktokcdn.com/video_mp4/it's.mp4\">get</a>") =
      some (lit "https://v.tiktokcdn.com/video_mp4/it") :=
  ⟨⟨lit "https://cdn.example/", lit "/", lit "/1.mp4", by decide⟩, by decide, by decide,
    by decide, by decide⟩

/-- C10, the code at the failing input: the markup holds a media anchor and an `<h3>`
whose content is a tag with a line break in it.  The expression `/<.*?>/g` of line 74 has
no `s` flag, so that tag is not removed (the closing tag is): the caption holds a `<`
that is followed later by a `>`, and the run saves the file `CC_alice_a_hrefxhi.mp4`.
Without the line break the same markup gives the caption `hi`. -/
theorem C10_tag_with_line_break :
    urlMatch (lit "<a href=\"https://v.tiktokcdn.com/video_mp4/1\">get</a><h3><a\nhref=\"x\">hi</a></h3>") =
      some (lit "https://v.tiktokcdn.com/video_mp4/1") ∧
    captionMatch (lit "<a href=\"https://v.tiktokcdn.com/video_mp4/1\">get</a><h3><a\nhref=\"x\">hi</a></h3>") =
      some (lit "<a\nhref=\"x\">hi</a>") ∧
    captionOf (lit "<a href=\"https://v.tiktokcdn.com/video_mp4/1\">get</a><h3><a\nhref=\"x\">hi</a></h3>") =
      lit "<a href=\"x\">hi" ∧
    lit "<a href=\"x\">hi" = [] ++ 60 :: lit "a href=\"x\"" ++ 62 :: lit "hi" ∧
    (downloadTiktoks lineBreakTagWorld).trace =
      [Event.lookup 0 (lit "https://tiktok.com/@alice/video/1"),
        Event.download 0 (lit "https://v.tiktokcdn.com/video_mp4/1"),
        Event.writeVideo 0 (lit "CC_alice_a_hrefxhi.mp4"),
        Event.logSaved 0 (lit "CC_alice_a_hrefxhi.mp4"),
        Event.clearLinks, Event.logCleared] ∧
    captionOf (lit "<a href=\"https://v.tiktokcdn.com/video_mp4/1\">get</a><h3><a href=\"x\">hi</a></h3>") =
      lit "hi" := by
  decide

end TiktokScraper
